import Mathlib

/-!
# Verification of the Planar Curve Network Maintenance engine

A shallow embedding of `PlanarCurveDatabase`
(`src/editor/curves/PlanarCurveDatabase.ts`) and the parts of its data model
it manipulates, together with proofs of the specification's claims about it.

Conventions of the embedding:
* `c3d.SimpleName` identifiers and internal planar-curve identifiers are
  modelled as `Nat`; curve parameters are exact rationals `ℚ` (the claims under
  study never hinge on binary floating-point rounding, only on comparisons and
  on which literal threshold the code uses).
* JavaScript `Map<K, V>` objects are modelled as association lists
  `List (K × V)` with first-match lookup; `Map.set` replaces the value of an
  existing key in place and appends a fresh key at the end, matching the
  insertion-order semantics of `Map`.
* JavaScript `Set<T>` objects are modelled as `List T` with membership-guarded
  append, matching insertion-order semantics of `Set.add`.
* Unbounded `while` loops are modelled with an explicit fuel parameter; a
  sufficiency theorem shows the fuel chosen by the wrapper never runs out, so
  the fueled function computes exactly what the loop computes.
-/

/-- A JS-`Map` lookup: first binding of the key, `none` when absent
(the value `undefined` in JavaScript). -/
def mapFind {α : Type} : List (Nat × α) → Nat → Option α
  | [], _ => none
  | (k, v) :: rest, n => if k = n then some v else mapFind rest n

/-- JS `Map.set`: overwrite the value at an existing key (keeping its
position) or append a fresh binding at the end. -/
def mapSet {α : Type} : List (Nat × α) → Nat → α → List (Nat × α)
  | [], n, v => [(n, v)]
  | (k, w) :: tl, n, v =>
    if k = n then (n, v) :: tl else (k, w) :: mapSet tl n v

/-- JS `Map.delete`: remove every binding of the key (a `Map` has at most
one). -/
def mapDelete {α : Type} (l : List (Nat × α)) (n : Nat) : List (Nat × α) :=
  l.filter (fun p => ¬ p.1 = n)

/-- JS `Set.add`: append the element unless already present. -/
def setAdd (l : List Nat) (n : Nat) : List Nat :=
  if n ∈ l then l else l ++ [n]

/-- Modelled from the spec: `PointOnCurve` of `ContourManager.ts` (whose file
is not part of the provided sources) — `(curveIdentity, parameter, tMin, tMax)`,
a parameter-space reference used inside `Joint`. -/
structure PointOnCurve where
  curve : Nat
  t : ℚ
  tmin : ℚ
  tmax : ℚ
  deriving DecidableEq

/-- Modelled from the spec: `Joint` of `ContourManager.ts` — records that a
curve's endpoint is coincident with another curve's endpoint. -/
structure Joint where
  on1 : PointOnCurve
  on2 : PointOnCurve
  deriving DecidableEq

/-- The `{start, stop}` joint record pair carried by a `CurveInfo`. -/
structure Joints where
  start : Option Joint
  stop : Option Joint
  deriving DecidableEq

/-- Modelled from the spec: `CurveInfo` of `ContourManager.ts` — per-curve
bookkeeping: its internal planar-curve identifier, its canonical placement,
the identities of the curves it currently intersects (`touched`), the
identifiers of its materialized fragments, and its endpoint joints.
Fragments are modelled by their resolved store identifiers. -/
structure CurveInfo where
  planarCurve : Nat
  placement : Nat
  touched : List Nat
  fragments : List Nat
  joints : Joints
  deriving DecidableEq

/-- A fresh `CurveInfo` as built by `new CurveInfo(counter, placement)`:
empty touched set, no fragments, no joints. -/
def CurveInfo.fresh (planarCurve placement : Nat) : CurveInfo :=
  { planarCurve := planarCurve, placement := placement,
    touched := [], fragments := [], joints := ⟨none, none⟩ }

/-- The `curve2info` registry: `Map<c3d.SimpleName, CurveInfo>`. -/
abbrev Registry := List (Nat × CurveInfo)

/-- Modelled from the spec: `Transaction` of `ContourManager.ts` —
`{dirty, deleted, added}`, three sets of curve identities. -/
structure Transaction where
  dirty : List Nat
  deleted : List Nat
  added : List Nat
  deriving DecidableEq

/-- The empty transaction `{ dirty: new Set(), deleted: new Set(),
added: new Set() }`, the default argument of `cascade`. -/
def Transaction.empty : Transaction := ⟨[], [], []⟩

/-- `PlanarCurveDatabase.lookup`: `return this.curve2info.get(simpleName)!`.
The TypeScript non-null assertion `!` is erased at runtime, so for an absent
identity the method returns the sentinel `undefined`, modelled as `none`. -/
def lookup (reg : Registry) (simpleName : Nat) : Option CurveInfo :=
  mapFind reg simpleName

/-- `PlanarCurveDatabase.removeInfo`: look the curve up; when absent return
with no effect; otherwise delete its registry entry and schedule removal of
each of its fragments from the geometry store. The result pairs the new
registry with the list of fragment identifiers removed from the store. -/
def removeInfo (reg : Registry) (curve : Nat) : Registry × List Nat :=
  match mapFind reg curve with
  | none => (reg, [])
  | some info => (mapDelete reg curve, info.fragments)

section BasicLemmas

theorem mapFind_eq_none_iff {α : Type} (l : List (Nat × α)) (n : Nat) :
    mapFind l n = none ↔ n ∉ l.map Prod.fst := by
  induction l with
  | nil => simp [mapFind]
  | cons hd tl ih =>
    by_cases h : hd.1 = n
    · simp [mapFind, h]
    · simp only [mapFind, h, if_false, List.map_cons, List.mem_cons, ih]
      constructor
      · intro hn hmem
        rcases hmem with h1 | h2
        · exact h h1.symm
        · exact hn h2
      · intro hn
        exact fun hm => hn (Or.inr hm)

theorem mapFind_mem {α : Type} {l : List (Nat × α)} {n : Nat} {v : α}
    (h : mapFind l n = some v) : (n, v) ∈ l := by
  induction l with
  | nil => simp [mapFind] at h
  | cons hd tl ih =>
    by_cases hk : hd.1 = n
    · simp only [mapFind, hk, if_true, Option.some.injEq] at h
      cases hd with
      | mk k w =>
        simp only at hk h
        subst hk
        subst h
        exact List.mem_cons_self _ _
    · simp only [mapFind, hk, if_false] at h
      exact List.mem_cons_of_mem _ (ih h)

end BasicLemmas

/-! ## The cascade walk

`PlanarCurveDatabase.cascade` marks the curve as deleted, then runs a
worklist loop over `touched` links:

```
const visited = dirty;
let walk = [...touched];
while (walk.length > 0) {
    const touchee = walk.pop()!;
    if (visited.has(touchee)) continue;
    visited.add(touchee);
    walk = walk.concat([...curve2info.get(touchee)!.touched]);
}
```

The JS array is popped from its end, so the model keeps the walk list
reversed: the Lean head is the JS array's last element, and
`walk.concat([...touched])` becomes `touched.reverse ++ rest`.
`curve2info.get(touchee)!` dereferences the registry without a presence
check; a missing entry (a `TypeError` on `.touched` at runtime) is modelled
as `none`.  The `while` loop is modelled with fuel; `cascadeWalkFuel` below
is proved sufficient whenever the loop completes at all. -/

/-- Total length of all `touched` sets of the registry; an upper bound for
the length of any single one. -/
def sumTouched (reg : Registry) : Nat :=
  (reg.map (fun p => p.2.touched.length)).sum

/-- Number of registry keys not yet visited (counted with multiplicity);
the quantity that shrinks every time the walk visits a fresh curve. -/
def unvisitedCount (reg : Registry) (visited : List Nat) : Nat :=
  (reg.map Prod.fst).countP (fun k => decide (k ∉ visited))

/-- The fuel `cascade` hands to the walk: enough for the initial walk plus
one full expansion of every registry entry. -/
def cascadeWalkFuel (reg : Registry) (walk : List Nat) : Nat :=
  walk.length + (reg.length + 1) * (sumTouched reg + 1) + 1

/-- The worklist loop of `cascade` (see the section comment): `visited` is
the transaction's `dirty` set, mutated in place; the function returns the
final `dirty` set, or `none` when the loop dereferences a curve identity
that has no registry entry (or, a model artifact, when fuel runs out —
`cascadeWalk_fuel_sufficient` rules that out for the fuel used). -/
def cascadeWalk (reg : Registry) : Nat → List Nat → List Nat → Option (List Nat)
  | _, visited, [] => some visited
  | 0, _, _ :: _ => none
  | fuel + 1, visited, touchee :: rest =>
    if touchee ∈ visited then cascadeWalk reg fuel visited rest
    else
      match mapFind reg touchee with
      | none => none
      | some info => cascadeWalk reg fuel (visited ++ [touchee]) (info.touched.reverse ++ rest)

/-- `PlanarCurveDatabase.cascade`: add the curve to `deleted`; when it has no
registry entry return the transaction unchanged otherwise; else run the
touched-closure walk seeded with the curve's `touched` set, accumulating into
`dirty`.  `none` models the runtime `TypeError` of dereferencing a missing
registry entry inside the walk. -/
def cascade (reg : Registry) (curve : Nat) (transaction : Transaction) :
    Option Transaction :=
  let deleted' := setAdd transaction.deleted curve
  match mapFind reg curve with
  | none => some { transaction with deleted := deleted' }
  | some info =>
    match cascadeWalk reg (cascadeWalkFuel reg info.touched.reverse)
        transaction.dirty info.touched.reverse with
    | none => none
    | some dirty' =>
      some { dirty := dirty', deleted := deleted', added := transaction.added }

section WalkLemmas

/-- A key present in the map always yields a binding. -/
theorem mapFind_isSome_of_mem {α : Type} {l : List (Nat × α)} {n : Nat}
    (h : n ∈ l.map Prod.fst) : ∃ v, mapFind l n = some v := by
  cases hf : mapFind l n with
  | some v => exact ⟨v, rfl⟩
  | none => exact absurd h ((mapFind_eq_none_iff l n).mp hf)

/-- Marking a fresh, present key as visited strictly shrinks the count of
unvisited keys. -/
theorem unvisitedCount_strict {reg : Registry} {visited : List Nat} {x : Nat}
    (hx : x ∈ reg.map Prod.fst) (hnv : x ∉ visited) :
    unvisitedCount reg (visited ++ [x]) < unvisitedCount reg visited := by
  unfold unvisitedCount
  induction reg with
  | nil => simp at hx
  | cons hd tl ih =>
    have hmono : (tl.map Prod.fst).countP (fun k => decide (k ∉ visited ++ [x])) ≤
        (tl.map Prod.fst).countP (fun k => decide (k ∉ visited)) := by
      apply List.countP_mono_left
      intro a _ ha
      simp only [decide_eq_true_eq] at ha ⊢
      intro hmem
      exact ha (List.mem_append_left _ hmem)
    simp only [List.map_cons, List.countP_cons]
    simp only [List.map_cons, List.mem_cons] at hx
    rcases hx with hx | hx
    · subst hx
      have e1 : (if (decide (hd.1 ∉ visited ++ [hd.1]) = true) then 1 else 0) = 0 :=
        if_neg (by simp)
      have e2 : (if (decide (hd.1 ∉ visited) = true) then 1 else 0) = 1 :=
        if_pos (by simpa using hnv)
      rw [e1, e2]
      omega
    · by_cases hh : hd.1 ∈ visited ++ [x]
      · have e1 : (if (decide (hd.1 ∉ visited ++ [x]) = true) then 1 else 0) = 0 := by
          apply if_neg
          simp only [decide_eq_true_eq]
          exact not_not_intro hh
        rw [e1]
        have := ih hx
        omega
      · have e1 : (if (decide (hd.1 ∉ visited ++ [x]) = true) then 1 else 0) = 1 := by
          apply if_pos
          simpa using hh
        have e2 : (if (decide (hd.1 ∉ visited) = true) then 1 else 0) = 1 := by
          apply if_pos
          simp only [decide_eq_true_eq]
          intro hm
          exact hh (List.mem_append_left _ hm)
        rw [e1, e2]
        have := ih hx
        omega

/-- The number of unvisited keys is at most the number of registry entries. -/
theorem unvisitedCount_le (reg : Registry) (visited : List Nat) :
    unvisitedCount reg visited ≤ reg.length := by
  unfold unvisitedCount
  calc (reg.map Prod.fst).countP _ ≤ (reg.map Prod.fst).length :=
        List.countP_le_length _
    _ = reg.length := List.length_map _ _

/-- Any registered `touched` set is no longer than `sumTouched`. -/
theorem touched_length_le {reg : Registry} {n : Nat} {i : CurveInfo}
    (h : mapFind reg n = some i) : i.touched.length ≤ sumTouched reg := by
  have hmem := mapFind_mem h
  unfold sumTouched
  have : i.touched.length ∈ reg.map (fun p => p.2.touched.length) :=
    List.mem_map.mpr ⟨(n, i), hmem, rfl⟩
  exact List.single_le_sum (fun x _ => Nat.zero_le x) _ this

/-- Fuel sufficiency: when every identity in the walk is registered and the
registry's `touched` sets only mention registered identities, the walk with
the stated fuel bound completes (no fuel exhaustion, no missing-entry
dereference). -/
theorem cascadeWalk_isSome (reg : Registry)
    (hclosed : ∀ p ∈ reg, ∀ t ∈ p.2.touched, t ∈ reg.map Prod.fst) :
    ∀ fuel visited walk,
    (∀ w ∈ walk, w ∈ reg.map Prod.fst) →
    unvisitedCount reg visited * (sumTouched reg + 1) + walk.length < fuel →
    ∃ V, cascadeWalk reg fuel visited walk = some V := by
  intro fuel
  induction fuel with
  | zero => intro visited walk _ hbound; omega
  | succ f ih =>
    intro visited walk hwalk hbound
    match walk with
    | [] => exact ⟨visited, rfl⟩
    | touchee :: rest =>
      by_cases hv : touchee ∈ visited
      · simp only [cascadeWalk, hv, if_true]
        apply ih
        · intro w hw; exact hwalk w (List.mem_cons_of_mem _ hw)
        · simp only [List.length_cons] at hbound; omega
      · obtain ⟨info, hinfo⟩ :=
          mapFind_isSome_of_mem (hwalk touchee (List.mem_cons_self _ _))
        simp only [cascadeWalk, hv, if_false, hinfo]
        apply ih
        · intro w hw
          rcases List.mem_append.mp hw with hw | hw
          · exact hclosed _ (mapFind_mem hinfo) w (List.mem_reverse.mp hw)
          · exact hwalk w (List.mem_cons_of_mem _ hw)
        · have hcnt := unvisitedCount_strict
            (hwalk touchee (List.mem_cons_self _ _)) hv
          have htl := touched_length_le hinfo
          have hmul : unvisitedCount reg (visited ++ [touchee]) * (sumTouched reg + 1)
              + (sumTouched reg + 1) ≤
              unvisitedCount reg visited * (sumTouched reg + 1) := by
            calc unvisitedCount reg (visited ++ [touchee]) * (sumTouched reg + 1)
                + (sumTouched reg + 1)
                = (unvisitedCount reg (visited ++ [touchee]) + 1) * (sumTouched reg + 1) := by
                  ring
              _ ≤ unvisitedCount reg visited * (sumTouched reg + 1) :=
                  mul_le_mul_right' (Nat.succ_le_of_lt hcnt) _
          simp only [List.length_append, List.length_reverse, List.length_cons] at hbound ⊢
          omega

/-- Soundness of the walk: every curve in the final `dirty` set was either
there initially or satisfies any predicate that holds of the initial walk
and is closed under following a registered `touched` link. -/
theorem cascadeWalk_sound (reg : Registry) (P : Nat → Prop)
    (hstep : ∀ z i y, P z → mapFind reg z = some i → y ∈ i.touched → P y) :
    ∀ fuel visited walk V,
    cascadeWalk reg fuel visited walk = some V →
    (∀ w ∈ walk, P w) →
    ∀ v ∈ V, v ∈ visited ∨ P v := by
  intro fuel
  induction fuel with
  | zero =>
    intro visited walk V hV hwalk v hv
    match walk with
    | [] =>
      simp only [cascadeWalk, Option.some.injEq] at hV
      subst hV
      exact Or.inl hv
    | _ :: _ => simp [cascadeWalk] at hV
  | succ f ih =>
    intro visited walk V hV hwalk v hv
    match walk with
    | [] =>
      simp only [cascadeWalk, Option.some.injEq] at hV
      subst hV
      exact Or.inl hv
    | touchee :: rest =>
      by_cases hvis : touchee ∈ visited
      · simp only [cascadeWalk, hvis, if_true] at hV
        exact ih visited rest V hV
          (fun w hw => hwalk w (List.mem_cons_of_mem _ hw)) v hv
      · cases hinfo : mapFind reg touchee with
        | none => simp [cascadeWalk, hvis, hinfo] at hV
        | some info =>
          simp only [cascadeWalk, hvis, if_false, hinfo] at hV
          have hwalk' : ∀ w ∈ info.touched.reverse ++ rest, P w := by
            intro w hw
            rcases List.mem_append.mp hw with hw | hw
            · exact hstep touchee info w
                (hwalk touchee (List.mem_cons_self _ _)) hinfo
                (List.mem_reverse.mp hw)
            · exact hwalk w (List.mem_cons_of_mem _ hw)
          rcases ih (visited ++ [touchee]) _ V hV hwalk' v hv with h | h
          · rcases List.mem_append.mp h with h | h
            · exact Or.inl h
            · simp only [List.mem_singleton] at h
              subst h
              exact Or.inr (hwalk v (List.mem_cons_self _ _))
          · exact Or.inr h

/-- Completeness of the walk: the final `dirty` set contains the initial
walk and the initial `dirty` set, and is saturated — every curve it newly
contains is registered and has all its `touched` links inside it. -/
theorem cascadeWalk_complete (reg : Registry) :
    ∀ fuel visited walk V,
    cascadeWalk reg fuel visited walk = some V →
    (∀ w ∈ walk, w ∈ V) ∧ (∀ v ∈ visited, v ∈ V) ∧
    (∀ v ∈ V, v ∉ visited → ∃ i, mapFind reg v = some i ∧ ∀ t ∈ i.touched, t ∈ V) := by
  intro fuel
  induction fuel with
  | zero =>
    intro visited walk V hV
    match walk with
    | [] =>
      simp only [cascadeWalk, Option.some.injEq] at hV
      subst hV
      exact ⟨fun w hw => (List.not_mem_nil w hw).elim, fun v hv => hv,
        fun v _ hnv => absurd ‹v ∈ visited› hnv⟩
    | _ :: _ => simp [cascadeWalk] at hV
  | succ f ih =>
    intro visited walk V hV
    match walk with
    | [] =>
      simp only [cascadeWalk, Option.some.injEq] at hV
      subst hV
      exact ⟨fun w hw => (List.not_mem_nil w hw).elim, fun v hv => hv,
        fun v hv hnv => absurd hv hnv⟩
    | touchee :: rest =>
      by_cases hvis : touchee ∈ visited
      · simp only [cascadeWalk, hvis, if_true] at hV
        obtain ⟨h1, h2, h3⟩ := ih visited rest V hV
        refine ⟨?_, h2, h3⟩
        intro w hw
        rcases List.mem_cons.mp hw with hw | hw
        · subst hw; exact h2 _ hvis
        · exact h1 _ hw
      · cases hinfo : mapFind reg touchee with
        | none => simp [cascadeWalk, hvis, hinfo] at hV
        | some info =>
          simp only [cascadeWalk, hvis, if_false, hinfo] at hV
          obtain ⟨h1, h2, h3⟩ := ih (visited ++ [touchee]) _ V hV
          have htee : touchee ∈ V := h2 _ (List.mem_append_right _ (List.mem_singleton.mpr rfl))
          refine ⟨?_, ?_, ?_⟩
          · intro w hw
            rcases List.mem_cons.mp hw with hw | hw
            · subst hw; exact htee
            · exact h1 _ (List.mem_append_right _ hw)
          · intro v hv
            exact h2 _ (List.mem_append_left _ hv)
          · intro v hv hnv
            by_cases hvt : v = touchee
            · subst hvt
              refine ⟨info, hinfo, ?_⟩
              intro t ht
              exact h1 _ (List.mem_append_left _ (List.mem_reverse.mpr ht))
            · apply h3 v hv
              intro hmem
              rcases List.mem_append.mp hmem with h | h
              · exact hnv h
              · exact hvt (List.mem_singleton.mp h)

end WalkLemmas

/-- Reachability along `touched` links: the transitive closure of the
`touched` relation starting from a seed set of curve identities. -/
inductive TouchReach (reg : Registry) (seed : List Nat) : Nat → Prop where
  | base {y : Nat} : y ∈ seed → TouchReach reg seed y
  | step {z y : Nat} {i : CurveInfo} : TouchReach reg seed z →
      mapFind reg z = some i → y ∈ i.touched → TouchReach reg seed y

/-- Helper to build sufficient fuel bounds for `cascade`'s walk. -/
theorem cascadeWalkFuel_sufficient (reg : Registry) (visited walk : List Nat) :
    unvisitedCount reg visited * (sumTouched reg + 1) + walk.length <
      cascadeWalkFuel reg walk := by
  unfold cascadeWalkFuel
  have h1 : unvisitedCount reg visited * (sumTouched reg + 1) ≤
      reg.length * (sumTouched reg + 1) :=
    mul_le_mul_right' (unvisitedCount_le reg visited) _
  have h2 : reg.length * (sumTouched reg + 1) + (sumTouched reg + 1) =
      (reg.length + 1) * (sumTouched reg + 1) := by ring
  omega

/-- When the curve is registered and the registry is `touched`-closed,
`cascade` completes and returns the walk's result. -/
theorem cascade_some (reg : Registry) (X : Nat) (tr : Transaction) (info : CurveInfo)
    (hX : mapFind reg X = some info)
    (hclosed : ∀ p ∈ reg, ∀ t ∈ p.2.touched, t ∈ reg.map Prod.fst) :
    ∃ V, cascadeWalk reg (cascadeWalkFuel reg info.touched.reverse)
        tr.dirty info.touched.reverse = some V ∧
      cascade reg X tr = some ⟨V, setAdd tr.deleted X, tr.added⟩ := by
  obtain ⟨V, hV⟩ := cascadeWalk_isSome reg hclosed
    (cascadeWalkFuel reg info.touched.reverse) tr.dirty info.touched.reverse
    (fun w hw => hclosed _ (mapFind_mem hX) w (List.mem_reverse.mp hw))
    (cascadeWalkFuel_sufficient reg tr.dirty info.touched.reverse)
  exact ⟨V, hV, by simp [cascade, hX, hV]⟩

/-- **C3** (cascade closure): for a registered curve `X` in a
`touched`-closed registry, `cascade X` with the default empty transaction
marks exactly `X` as deleted, and its `dirty` set holds precisely the
transitive closure of the `touched` relation reachable from `X`'s
registered touches (`TouchReach`): every curve reachable by repeatedly
following `touched` links is included, and no other curve is. -/
theorem cascade_dirty_is_touched_closure (reg : Registry) (X : Nat) (info : CurveInfo)
    (hX : mapFind reg X = some info)
    (hclosed : ∀ p ∈ reg, ∀ t ∈ p.2.touched, t ∈ reg.map Prod.fst) :
    ∃ tr, cascade reg X Transaction.empty = some tr ∧
      tr.deleted = [X] ∧ tr.added = [] ∧
      (∀ y, y ∈ tr.dirty ↔ TouchReach reg info.touched y) := by
  obtain ⟨V, hV, hc⟩ := cascade_some reg X Transaction.empty info hX hclosed
  refine ⟨⟨V, setAdd [] X, []⟩, hc, by simp [setAdd], rfl, ?_⟩
  intro y
  constructor
  · intro hy
    have hs := cascadeWalk_sound reg (TouchReach reg info.touched)
      (fun z i yy hz hzi hyy => TouchReach.step hz hzi hyy)
      _ _ _ V hV
      (fun w hw => TouchReach.base (List.mem_reverse.mp hw)) y hy
    rcases hs with h | h
    · exact absurd h (List.not_mem_nil y)
    · exact h
  · intro hy
    obtain ⟨h1, h2, h3⟩ := cascadeWalk_complete reg _ _ _ V hV
    induction hy with
    | base hm => exact h1 _ (List.mem_reverse.mpr hm)
    | step hz hzi hyy ihz =>
      obtain ⟨i', hi', hsat⟩ := h3 _ ihz (List.not_mem_nil _)
      have hii : _ = i' := Option.some.inj (hzi ▸ hi')
      subst hii
      exact hsat _ hyy

/-- **C9** (cascade walk safety): when every identity appearing in any
registered `touched` set is itself registered, `cascade` never dereferences
a missing registry entry: it returns a transaction for every curve and
every starting transaction.  (Termination of the walk itself is the
totality of `cascadeWalk` together with `cascadeWalkFuel_sufficient`: the
`dirty`/visited set lets each curve be expanded at most once, which is what
bounds the fuel.) -/
theorem cascade_never_misses (reg : Registry) (X : Nat) (tr : Transaction)
    (hclosed : ∀ p ∈ reg, ∀ t ∈ p.2.touched, t ∈ reg.map Prod.fst) :
    (cascade reg X tr).isSome := by
  cases hX : mapFind reg X with
  | none => simp [cascade, hX]
  | some info =>
    obtain ⟨V, hV, hc⟩ := cascade_some reg X tr info hX hclosed
    simp [hc]

/-- **C10** (unregistered removal is a no-op): for a curve with no registry
entry, `cascade` only records the deletion — `dirty` is untouched, and with
the default transaction the result is exactly
`{dirty: ∅, deleted: {curve}, added: ∅}` — and `removeInfo` leaves the
registry unchanged and schedules no fragment removals; no error is
raised. -/
theorem remove_unregistered_noop (reg : Registry) (curve : Nat) (tr : Transaction)
    (h : mapFind reg curve = none) :
    (cascade reg curve tr = some { tr with deleted := setAdd tr.deleted curve }) ∧
    (cascade reg curve Transaction.empty =
      some { dirty := [], deleted := [curve], added := [] }) ∧
    removeInfo reg curve = (reg, []) := by
  refine ⟨?_, ?_, ?_⟩
  · simp [cascade, h]
  · simp [cascade, h, setAdd, Transaction.empty]
  · simp [removeInfo, h]

/-- A `CurveInfo` carrying only a `touched` set, for concrete test
registries. -/
def tinfo (ts : List Nat) : CurveInfo :=
  { planarCurve := 0, placement := 0, touched := ts, fragments := [],
    joints := ⟨none, none⟩ }

/-- A concrete registry: 1 touches 2, 2 touches 3, 3 and 4 touch nothing.
Curve 3 is two `touched` hops from curve 1; curve 4 is unreachable. -/
def reg3 : Registry := [(1, tinfo [2]), (2, tinfo [3]), (3, tinfo []), (4, tinfo [])]

theorem cascade_dirty_is_touched_closure_witness :
    ((mapFind reg3 1 = some (tinfo [2])) ∧
      (∀ p ∈ reg3, ∀ t ∈ p.2.touched, t ∈ reg3.map Prod.fst)) ∧
    (∃ tr, cascade reg3 1 Transaction.empty = some tr ∧
      tr.deleted = [1] ∧ tr.added = [] ∧
      (∀ y, y ∈ tr.dirty ↔ TouchReach reg3 (tinfo [2]).touched y)) :=
  ⟨⟨by decide, by decide⟩,
    cascade_dirty_is_touched_closure reg3 1 (tinfo [2]) (by decide) (by decide)⟩

theorem cascade_never_misses_witness :
    (∀ p ∈ reg3, ∀ t ∈ p.2.touched, t ∈ reg3.map Prod.fst) ∧
    (cascade reg3 2 ⟨[7], [8], [9]⟩).isSome :=
  ⟨by decide, cascade_never_misses reg3 2 ⟨[7], [8], [9]⟩ (by decide)⟩

theorem remove_unregistered_noop_witness :
    (mapFind reg3 99 = none) ∧
    ((cascade reg3 99 ⟨[7], [8], [9]⟩ =
        some { dirty := [7], deleted := setAdd [8] 99, added := [9] }) ∧
      (cascade reg3 99 Transaction.empty =
        some { dirty := [], deleted := [99], added := [] }) ∧
      removeInfo reg3 99 = (reg3, [])) :=
  ⟨by decide, remove_unregistered_noop reg3 99 ⟨[7], [8], [9]⟩ (by decide)⟩

/-! ## Commit

`PlanarCurveDatabase.commit` runs four sequential loops and then awaits all
scheduled re-adds:

```
for (const touchee of data.dirty)     removeInfo(touchee);
for (const touchee of data.deleted)   { if (dirty.has) continue; removeInfo(touchee); }
for (const touchee of data.dirty)     { if (deleted.has) continue; promises.push(add(...)); }
for (const touchee of data.added)     { if (deleted.has || dirty.has) continue; promises.push(add(...)); }
await Promise.all(promises);
```

`commitTrace` records the ordered sequence of store-affecting operations
this performs: one `teardown` per `removeInfo` call in loop order, one
`readd` per scheduled `add`, and a final `resolve` standing for the
`await Promise.all` that completes only after every scheduled re-add. -/

/-- One observable operation of `commit`. -/
inductive CommitEvent where
  | teardown (curve : Nat)
  | readd (curve : Nat)
  | resolve
  deriving DecidableEq

/-- Phase number of an event: teardowns happen first, re-adds second,
resolution last. -/
def CommitEvent.rank : CommitEvent → Nat
  | .teardown _ => 0
  | .readd _ => 1
  | .resolve => 2

/-- The ordered operation trace of `PlanarCurveDatabase.commit` on a
transaction (see the section comment). -/
def commitTrace (data : Transaction) : List CommitEvent :=
  (data.dirty.map CommitEvent.teardown)
    ++ ((data.deleted.filter (fun c => decide (c ∉ data.dirty))).map CommitEvent.teardown)
    ++ ((data.dirty.filter (fun c => decide (c ∉ data.deleted))).map CommitEvent.readd)
    ++ ((data.added.filter
          (fun c => decide (c ∉ data.deleted) && decide (c ∉ data.dirty))).map CommitEvent.readd)
    ++ [CommitEvent.resolve]

section CommitLemmas

theorem pairwise_rank_append {l₁ l₂ : List CommitEvent} {r : Nat}
    (h₁ : ∀ a ∈ l₁, CommitEvent.rank a ≤ r) (h₂ : ∀ b ∈ l₂, r ≤ CommitEvent.rank b)
    (p₁ : l₁.Pairwise (fun a b => a.rank ≤ b.rank))
    (p₂ : l₂.Pairwise (fun a b => a.rank ≤ b.rank)) :
    (l₁ ++ l₂).Pairwise (fun a b => a.rank ≤ b.rank) :=
  List.pairwise_append.mpr ⟨p₁, p₂, fun a ha b hb => le_trans (h₁ a ha) (h₂ b hb)⟩

theorem pairwise_rank_map (l : List Nat) (f : Nat → CommitEvent) (k : Nat)
    (hf : ∀ c, (f c).rank = k) :
    (l.map f).Pairwise (fun a b => a.rank ≤ b.rank) := by
  apply List.pairwise_of_forall_mem_list
  intro a ha b hb
  obtain ⟨c, _, rfl⟩ := List.mem_map.mp ha
  obtain ⟨d, _, rfl⟩ := List.mem_map.mp hb
  rw [hf c, hf d]

theorem rank_mem_map_teardown {l : List Nat} {a : CommitEvent}
    (h : a ∈ l.map CommitEvent.teardown) : a.rank = 0 := by
  obtain ⟨c, _, rfl⟩ := List.mem_map.mp h
  rfl

theorem rank_mem_map_readd {l : List Nat} {a : CommitEvent}
    (h : a ∈ l.map CommitEvent.readd) : a.rank = 1 := by
  obtain ⟨c, _, rfl⟩ := List.mem_map.mp h
  rfl

end CommitLemmas

/-- **C4** (commit ordering and re-add set): in every commit trace the
teardown phase fully precedes the re-add phase, which precedes resolution
(event ranks are monotone along the trace); a curve is torn down iff it is
dirty or deleted; a curve is re-added iff it is dirty and not deleted, or
added and neither deleted nor dirty; and the trace resolves last, only
after every re-add. -/
theorem commit_ordering (data : Transaction) :
    (commitTrace data).Pairwise (fun a b => a.rank ≤ b.rank) ∧
    (∀ x, CommitEvent.teardown x ∈ commitTrace data ↔
      x ∈ data.dirty ∨ x ∈ data.deleted) ∧
    (∀ x, CommitEvent.readd x ∈ commitTrace data ↔
      (x ∈ data.dirty ∧ x ∉ data.deleted) ∨
      (x ∈ data.added ∧ x ∉ data.deleted ∧ x ∉ data.dirty)) ∧
    (commitTrace data).getLast? = some CommitEvent.resolve := by
  refine ⟨?_, ?_, ?_, ?_⟩
  · unfold commitTrace
    apply pairwise_rank_append (r := 2)
    · intro a ha
      rcases List.mem_append.mp ha with ha | hD
      · rcases List.mem_append.mp ha with ha | hC
        · rcases List.mem_append.mp ha with hA | hB
          · have := rank_mem_map_teardown hA; omega
          · have := rank_mem_map_teardown hB; omega
        · have := rank_mem_map_readd hC; omega
      · have := rank_mem_map_readd hD; omega
    · intro b hb
      simp only [List.mem_singleton] at hb
      subst hb
      exact le_refl _
    · apply pairwise_rank_append (r := 1)
      · intro a ha
        rcases List.mem_append.mp ha with ha | hC
        · rcases List.mem_append.mp ha with hA | hB
          · have := rank_mem_map_teardown hA; omega
          · have := rank_mem_map_teardown hB; omega
        · have := rank_mem_map_readd hC; omega
      · intro b hb
        have := rank_mem_map_readd hb; omega
      · apply pairwise_rank_append (r := 1)
        · intro a ha
          rcases List.mem_append.mp ha with hA | hB
          · have := rank_mem_map_teardown hA; omega
          · have := rank_mem_map_teardown hB; omega
        · intro b hb
          have := rank_mem_map_readd hb; omega
        · apply pairwise_rank_append (r := 0)
          · intro a ha
            have := rank_mem_map_teardown ha; omega
          · intro b hb; exact Nat.zero_le _
          · exact pairwise_rank_map _ _ 0 (fun _ => rfl)
          · exact pairwise_rank_map _ _ 0 (fun _ => rfl)
        · exact pairwise_rank_map _ _ 1 (fun _ => rfl)
      · exact pairwise_rank_map _ _ 1 (fun _ => rfl)
    · exact List.pairwise_singleton _ _
  · intro x
    constructor
    · intro h
      have h' : x ∈ Transaction.dirty data ∨
          x ∈ Transaction.deleted data ∧ x ∉ Transaction.dirty data := by
        simpa [commitTrace] using h
      tauto
    · intro h
      rcases h with h | h
      · simp [commitTrace, h]
      · by_cases hd : x ∈ data.dirty
        · simp [commitTrace, hd]
        · simp [commitTrace, hd, h]
  · intro x
    simp only [commitTrace]
    by_cases hd : x ∈ data.deleted <;> by_cases hdd : x ∈ data.dirty <;>
      simp [hd, hdd]
  · unfold commitTrace
    rw [List.getLast?_concat]

/-! ## The fragment walk of `add`

After sorting the intersection list of the current curve, `add` extends it —
for a bounded open curve a crossing at `GetTMin()` is prepended and one at
`GetTMax()` appended; for a closed curve a copy of the first crossing is
appended — and then walks it once:

```
let start = crosses[0].on1.t;
const trims: Trim[] = [];
for (const cross of crosses) {
    const stop = cross.on1.t;
    if (Math.abs(start - stop) > 10e-6) trims.push({ trimmed, start, stop });
    start = stop;
}
```

Note the literal is `10e-6`, i.e. `1e-5 = 1/100000`.  A trim is modelled by
its recorded provenance `(start, stop)`; the trimmed geometry is determined
by that range via `curve1.Trimmed(start, stop, 1)`.  With zero intersections
`add` instead schedules the single trim `{trimmed: current, start: -1,
stop: -1}` — the whole curve with the sentinel provenance `(-1, -1)`. -/

/-- Consecutive-pair list: `pairs [t0, t1, t2] = [(t0,t1), (t1,t2)]`. -/
def pairs : List ℚ → List (ℚ × ℚ)
  | a :: b :: rest => (a, b) :: pairs (b :: rest)
  | _ => []

/-- The loop body of the fragment walk (see the section comment), with
`start` as the running variable. -/
def trimSpans (start : ℚ) : List ℚ → List (ℚ × ℚ)
  | [] => []
  | t :: rest =>
    if (10 : ℚ) / 1000000 < |start - t| then (start, t) :: trimSpans t rest
    else trimSpans t rest

/-- The fragment walk over a (sorted, extended) crossing-parameter list:
`start` is initialized to the first entry and the loop runs over the whole
list. -/
def trimsWalk : List ℚ → List (ℚ × ℚ)
  | [] => []
  | c :: rest => trimSpans c (c :: rest)

/-- The crossing-parameter list after `add`'s sort and boundary extension:
`crosses.sort(...)`, then `unshift`/`push` of the domain endpoints for a
bounded open curve, or `push(crosses[0])` for a closed curve
(`sorted.take 1` is its first element). -/
def boundaries (bounded closed : Bool) (tmin tmax : ℚ) (ts : List ℚ) : List ℚ :=
  let sorted := ts.insertionSort (· ≤ ·)
  if bounded && !closed then tmin :: sorted ++ [tmax]
  else if closed then sorted ++ sorted.take 1
  else sorted

/-- The trims `add` schedules for one curve, given the raw intersection
parameters `ts` along it: the sentinel whole-curve trim when there are no
intersections, otherwise the fragment walk over the extended sorted list. -/
def processCrosses (bounded closed : Bool) (tmin tmax : ℚ) (ts : List ℚ) :
    List (ℚ × ℚ) :=
  if ts.isEmpty then [(-1, -1)]
  else trimsWalk (boundaries bounded closed tmin tmax ts)

section TrimLemmas

theorem trimSpans_eq_filter (l : List ℚ) : ∀ a : ℚ, trimSpans a l =
    (pairs (a :: l)).filter (fun p => decide ((10 : ℚ)/1000000 < |p.1 - p.2|)) := by
  induction l with
  | nil => intro a; rfl
  | cons b rest ih =>
    intro a
    show trimSpans a (b :: rest) = ((a, b) :: pairs (b :: rest)).filter _
    rw [List.filter_cons]
    by_cases h : (10 : ℚ)/1000000 < |a - b|
    · simp only [trimSpans, h, if_true, decide_eq_true_eq]
      rw [ih b]
    · simp only [trimSpans, h, if_false, decide_eq_true_eq]
      rw [ih b]

/-- The fragment walk produces exactly the consecutive pairs of the list
whose parameter width exceeds `10e-6`. -/
theorem trimsWalk_eq_filter (l : List ℚ) : trimsWalk l =
    (pairs l).filter (fun p => decide ((10 : ℚ)/1000000 < |p.1 - p.2|)) := by
  match l with
  | [] => rfl
  | c :: rest =>
    show trimSpans c (c :: rest) = _
    rw [trimSpans_eq_filter]
    show ((c, c) :: pairs (c :: rest)).filter _ = _
    rw [List.filter_cons]
    have h0 : (decide ((10 : ℚ)/1000000 < |c - c|)) = false := by
      rw [decide_eq_false_iff_not, sub_self, abs_zero]
      norm_num
    rw [h0]
    simp

theorem pairs_fst_mem : ∀ (l : List ℚ), ∀ q ∈ pairs l, q.1 ∈ l
  | [], q, hq => by simp [pairs] at hq
  | [a], q, hq => by simp [pairs] at hq
  | a :: b :: rest, q, hq => by
    rcases List.mem_cons.mp hq with hq | hq
    · subst hq; exact List.mem_cons_self _ _
    · exact List.mem_cons_of_mem _ (pairs_fst_mem (b :: rest) q hq)

theorem pairs_ordered : ∀ (l : List ℚ), l.Pairwise (· ≤ ·) →
    ∀ p ∈ pairs l, p.1 ≤ p.2
  | [], _, p, hp => by simp [pairs] at hp
  | [a], _, p, hp => by simp [pairs] at hp
  | a :: b :: rest, hch, p, hp => by
    rcases List.mem_cons.mp hp with hp | hp
    · subst hp
      exact (List.pairwise_cons.mp hch).1 b (List.mem_cons_self _ _)
    · exact pairs_ordered (b :: rest) (List.pairwise_cons.mp hch).2 p hp

theorem pairs_pairwise_le : ∀ (l : List ℚ), l.Pairwise (· ≤ ·) →
    (pairs l).Pairwise (fun p q => p.2 ≤ q.1)
  | [], _ => by simp [pairs]
  | [a], _ => by simp [pairs]
  | a :: b :: rest, hch => by
    show ((a, b) :: pairs (b :: rest)).Pairwise _
    refine List.Pairwise.cons ?_
      (pairs_pairwise_le (b :: rest) (List.pairwise_cons.mp hch).2)
    intro q hq
    have hq1 : q.1 ∈ b :: rest := pairs_fst_mem _ q hq
    rcases List.mem_cons.mp hq1 with h | h
    · exact le_of_eq h.symm
    · exact ((List.pairwise_cons.mp (List.pairwise_cons.mp hch).2).1 q.1 h)

theorem pairs_cover : ∀ (l : List ℚ) (a last x : ℚ),
    (a :: l).Pairwise (· ≤ ·) → l ≠ [] →
    (a :: l).getLast? = some last →
    a ≤ x → x ≤ last →
    ∃ p ∈ pairs (a :: l), p.1 ≤ x ∧ x ≤ p.2 := by
  intro l
  induction l with
  | nil => intro a last x _ hne; exact absurd rfl hne
  | cons b rest ih =>
    intro a last x hch _ hlast hax hxl
    by_cases hxb : x ≤ b
    · exact ⟨(a, b), List.mem_cons_self _ _, hax, hxb⟩
    · push_neg at hxb
      rcases Decidable.em (rest = []) with hrest | hrest
      · subst hrest
        have : last = b := by
          simp [List.getLast?] at hlast
          exact hlast.symm
        subst this
        exact absurd hxl (not_le.mpr hxb)
      · have hlast' : (b :: rest).getLast? = some last := by
          rw [← hlast]
          match rest with
          | r :: rs => rfl
          | [] => exact absurd rfl hrest
        obtain ⟨p, hp, hp1, hp2⟩ := ih b last x (List.pairwise_cons.mp hch).2
          hrest hlast' (le_of_lt hxb) hxl
        exact ⟨p, List.mem_cons_of_mem _ hp, hp1, hp2⟩

end TrimLemmas

/-- **C6 amended** (degenerate-span threshold): the fragment walk turns
consecutive parameter values of the crossing list into fragment boundaries,
and a span produces a trimmed fragment exactly when its parameter width
strictly exceeds `10e-6 = 1e-5` (the code's literal); a span of width at
most `1e-5` — in particular any span between `1e-6` and `1e-5` — is
skipped. -/
theorem trim_span_threshold (l : List ℚ) :
    trimsWalk l =
      (pairs l).filter (fun p => decide ((10 : ℚ)/1000000 < |p.1 - p.2|)) ∧
    (∀ p : ℚ × ℚ, p ∈ trimsWalk l ↔
      p ∈ pairs l ∧ (10 : ℚ)/1000000 < |p.1 - p.2|) := by
  refine ⟨trimsWalk_eq_filter l, ?_⟩
  intro p
  rw [trimsWalk_eq_filter l, List.mem_filter]
  simp

/-- **C6 counterexample**: the claim says every span at least `1e-6` wide
produces a fragment; but the span `[0, 1/200000]` is `5e-6 ≥ 1e-6` wide and
the walk produces nothing, because the code's threshold is `10e-6`. -/
theorem trim_span_threshold_cex :
    trimsWalk [0, 1/200000] = [] ∧ (1/1000000 : ℚ) ≤ |(0 : ℚ) - 1/200000| := by
  have h1 : ¬ ((10 : ℚ)/1000000 < |(0 : ℚ) - 0|) := by
    rw [sub_self, abs_zero]
    norm_num
  have h2 : ¬ ((10 : ℚ)/1000000 < |(0 : ℚ) - 1/200000|) := by
    rw [abs_of_nonpos (by norm_num)]
    norm_num
  refine ⟨?_, ?_⟩
  · show trimSpans 0 [0, 1/200000] = []
    simp only [trimSpans, h1, h2, if_false]
  · rw [abs_of_nonpos (by norm_num)]
    norm_num

/-- Sortedness of the extended boundary list of a bounded open curve: the
domain endpoints enclose the sorted crossing parameters. -/
theorem boundaries_pairwise (tmin tmax : ℚ) (ts : List ℚ)
    (hin : ∀ t ∈ ts, tmin ≤ t ∧ t ≤ tmax) (hmm : tmin ≤ tmax) :
    (tmin :: (ts.insertionSort (· ≤ ·) ++ [tmax])).Pairwise (· ≤ ·) := by
  have hsorted : (ts.insertionSort (· ≤ ·)).Pairwise (· ≤ ·) :=
    List.sorted_insertionSort (· ≤ ·) ts
  have hmem : ∀ t ∈ ts.insertionSort (· ≤ ·), tmin ≤ t ∧ t ≤ tmax := by
    intro t ht
    exact hin t ((List.perm_insertionSort (· ≤ ·) ts).mem_iff.mp ht)
  refine List.pairwise_cons.mpr ⟨?_, ?_⟩
  · intro b hb
    rcases List.mem_append.mp hb with hb | hb
    · exact (hmem b hb).1
    · simp only [List.mem_singleton] at hb
      subst hb
      exact hmm
  · refine List.pairwise_append.mpr ⟨hsorted, List.pairwise_singleton _ _, ?_⟩
    intro a ha b hb
    simp only [List.mem_singleton] at hb
    subst hb
    exact (hmem a ha).2

/-- **C1 amended** (fragment coverage): for a bounded open curve with at
least one intersection, every scheduled fragment is a consecutive span of
the extended sorted crossing list with width strictly greater than
`10e-6 = 1e-5`; every parameter of the domain `[tmin, tmax]` is either
covered by a fragment or lies in a skipped consecutive span of width at
most `1e-5`; fragments never overlap (consecutive fragments meet at most in
a point); and with zero intersections the whole curve becomes one fragment
whose recorded provenance is the sentinel `(-1, -1)`, not the domain
`(tmin, tmax)`. -/
theorem fragment_coverage (tmin tmax : ℚ) (ts : List ℚ)
    (hne : ts ≠ [])
    (hin : ∀ t ∈ ts, tmin ≤ t ∧ t ≤ tmax) :
    (∀ p ∈ processCrosses true false tmin tmax ts,
        p.1 ≤ p.2 ∧ (10 : ℚ)/1000000 < p.2 - p.1) ∧
    (∀ x : ℚ, tmin ≤ x → x ≤ tmax →
      (∃ p ∈ processCrosses true false tmin tmax ts, p.1 ≤ x ∧ x ≤ p.2) ∨
      (∃ p ∈ pairs (boundaries true false tmin tmax ts),
        p.1 ≤ x ∧ x ≤ p.2 ∧ p.2 - p.1 ≤ (10 : ℚ)/1000000)) ∧
    (processCrosses true false tmin tmax ts).Pairwise (fun p q => p.2 ≤ q.1) ∧
    (∀ b c : Bool, processCrosses b c tmin tmax [] = [(-1, -1)]) := by
  obtain ⟨t0, ts', rfl⟩ : ∃ t0 ts', ts = t0 :: ts' := by
    cases ts with
    | nil => exact absurd rfl hne
    | cons a l => exact ⟨a, l, rfl⟩
  have hmm : tmin ≤ tmax := by
    have h0 := hin t0 (List.mem_cons_self _ _)
    exact le_trans h0.1 h0.2
  have hb : boundaries true false tmin tmax (t0 :: ts') =
      tmin :: ((t0 :: ts').insertionSort (· ≤ ·) ++ [tmax]) := by
    simp [boundaries]
  have hPW := boundaries_pairwise tmin tmax (t0 :: ts') hin hmm
  have hproc : processCrosses true false tmin tmax (t0 :: ts') =
      trimsWalk (boundaries true false tmin tmax (t0 :: ts')) := by
    simp [processCrosses]
  refine ⟨?_, ?_, ?_, ?_⟩
  · intro p hp
    rw [hproc, trimsWalk_eq_filter, List.mem_filter] at hp
    obtain ⟨hp1, hp2⟩ := hp
    rw [hb] at hp1
    simp only [decide_eq_true_eq] at hp2
    have hord : p.1 ≤ p.2 := pairs_ordered _ hPW p hp1
    refine ⟨hord, ?_⟩
    rw [abs_sub_comm, abs_of_nonneg (sub_nonneg.mpr hord)] at hp2
    exact hp2
  · intro x hx1 hx2
    have hlast : (tmin :: ((t0 :: ts').insertionSort (· ≤ ·) ++ [tmax])).getLast?
        = some tmax := by
      show ((tmin :: (t0 :: ts').insertionSort (· ≤ ·)) ++ [tmax]).getLast? = some tmax
      exact List.getLast?_concat _
    obtain ⟨p, hp, hp1, hp2⟩ := pairs_cover _ tmin tmax x hPW
      (by simp) hlast hx1 hx2
    have hord : p.1 ≤ p.2 := pairs_ordered _ hPW p hp
    by_cases hw : (10 : ℚ)/1000000 < |p.1 - p.2|
    · left
      refine ⟨p, ?_, hp1, hp2⟩
      rw [hproc, trimsWalk_eq_filter, List.mem_filter, hb]
      exact ⟨hp, by simpa using hw⟩
    · right
      refine ⟨p, by rw [hb]; exact hp, hp1, hp2, ?_⟩
      rw [abs_sub_comm, abs_of_nonneg (sub_nonneg.mpr hord)] at hw
      exact le_of_not_lt hw
  · rw [hproc, trimsWalk_eq_filter]
    have hpl : (pairs (boundaries true false tmin tmax (t0 :: ts'))).Pairwise
        (fun p q => p.2 ≤ q.1) := by
      rw [hb]
      exact pairs_pairwise_le _ hPW
    exact hpl.sublist (List.filter_sublist _)
  · intro b c
    simp [processCrosses]

theorem fragment_coverage_witness :
    (([2] : List ℚ) ≠ [] ∧ (∀ t ∈ ([2] : List ℚ), (0 : ℚ) ≤ t ∧ t ≤ 3)) ∧
    ((∀ p ∈ processCrosses true false 0 3 [2],
        p.1 ≤ p.2 ∧ (10 : ℚ)/1000000 < p.2 - p.1) ∧
    (∀ x : ℚ, 0 ≤ x → x ≤ 3 →
      (∃ p ∈ processCrosses true false 0 3 [2], p.1 ≤ x ∧ x ≤ p.2) ∨
      (∃ p ∈ pairs (boundaries true false 0 3 [2]),
        p.1 ≤ x ∧ x ≤ p.2 ∧ p.2 - p.1 ≤ (10 : ℚ)/1000000)) ∧
    (processCrosses true false 0 3 [2]).Pairwise (fun p q => p.2 ≤ q.1) ∧
    (∀ b c : Bool, processCrosses b c 0 3 [] = [(-1, -1)])) :=
  ⟨⟨List.cons_ne_nil _ _, by
      intro t ht
      simp only [List.mem_singleton] at ht
      subst ht
      norm_num⟩,
    fragment_coverage 0 3 [2] (List.cons_ne_nil _ _) (by
      intro t ht
      simp only [List.mem_singleton] at ht
      subst ht
      norm_num)⟩

/-- **C1 counterexample**: two interior crossings `5e-6` apart on the unit
domain.  The walk produces fragments `[ (0, 1/2), (1/2 + 5e-6, 1) ]`,
leaving the span between them — of width `5e-6`, wider than the claimed
`1e-6` tolerance — covered by no fragment: the midpoint `1/2 + 2.5e-6` lies
in the domain but above the first fragment's stop and below the second
fragment's start, so the union of the fragments' ranges does not
reconstruct the domain up to `1e-6`. -/
theorem fragment_coverage_cex :
    processCrosses true false 0 1 [1/2, 100001/200000] =
      [(0, 1/2), (100001/200000, 1)] ∧
    ((100001/200000 : ℚ) - 1/2 = 1/200000) ∧
    ((1/1000000 : ℚ) < 1/200000) ∧
    (¬ ((200001/400000 : ℚ) ≤ 1/2)) ∧
    (¬ ((100001/200000 : ℚ) ≤ 200001/400000)) ∧
    ((0 : ℚ) ≤ 200001/400000 ∧ (200001/400000 : ℚ) ≤ 1) := by
  refine ⟨?_, by norm_num, by norm_num, by norm_num, by norm_num, by norm_num⟩
  · have hsort : ([1/2, 100001/200000] : List ℚ).insertionSort (· ≤ ·) =
        [1/2, 100001/200000] := by
      show List.orderedInsert _ _ (List.orderedInsert _ _ []) = _
      simp only [List.orderedInsert]
      rw [if_pos (by norm_num : (1/2 : ℚ) ≤ 100001/200000)]
    have hbd : boundaries true false 0 1 [1/2, 100001/200000] =
        [0, 1/2, 100001/200000, 1] := by
      show (0 : ℚ) :: ([1/2, 100001/200000] : List ℚ).insertionSort (· ≤ ·) ++ [1] = _
      rw [hsort]
      rfl
    have h1 : ¬ ((10 : ℚ)/1000000 < |(0 : ℚ) - 0|) := by
      rw [sub_self, abs_zero]
      norm_num
    have h2 : ((10 : ℚ)/1000000 < |(0 : ℚ) - 1/2|) := by
      rw [abs_of_nonpos (by norm_num)]
      norm_num
    have h3 : ¬ ((10 : ℚ)/1000000 < |(1/2 : ℚ) - 100001/200000|) := by
      rw [abs_of_nonpos (by norm_num)]
      norm_num
    have h4 : ((10 : ℚ)/1000000 < |(100001/200000 : ℚ) - 1|) := by
      rw [abs_of_nonpos (by norm_num)]
      norm_num
    show trimsWalk (boundaries true false 0 1 [1/2, 100001/200000]) =
      [(0, 1/2), (100001/200000, 1)]
    rw [hbd]
    show trimSpans 0 [0, 1/2, 100001/200000, 1] = [(0, 1/2), (100001/200000, 1)]
    simp only [trimSpans]
    rw [if_neg h1, if_pos h2, if_neg h3, if_pos h4]

/-! ## Lookup -/

/-- **C8 counterexample**: looking up a curve identity absent from the
registry does not signal.  `Map.get` returns `undefined` and the TypeScript
non-null assertion `!` is erased at runtime, so `lookup` returns the
sentinel (`none` in the model) instead of raising — the claim that an
invalid lookup "signals immediately rather than returning a sentinel" is
false already on the empty registry. -/
theorem lookup_sentinel_cex : lookup [] 0 = none := rfl

/-- **C8 amended**: for every curve identity not present in the registry,
`lookup` returns the sentinel `undefined` (`none`) — and only for those —
with no runtime failure: the non-null assertion in
`this.curve2info.get(simpleName)!` is compile-time only. -/
theorem lookup_sentinel (reg : Registry) (n : Nat) :
    lookup reg n = none ↔ n ∉ reg.map Prod.fst :=
  mapFind_eq_none_iff reg n

/-! ## Joint recording

`PlanarCurveDatabase.addJoint(cross, planar2instance)`:

```
const { on1: { curve: curve1, t: t1 }, on2: { curve: curve2, t: t2 } } = cross;
... look up view1simpleName, view2simpleName, info1, info2 ...
if (t1 !== t1min && t1 !== t1max) return;
if (t1 === curve1.GetTMin()) info1.joints.start = new Joint(on1, on2);
else                         info1.joints.stop  = new Joint(on1, on2);
if (t2 === curve2.GetTMin())      info2.joints.start = new Joint(on2, on1);
else if (t2 === curve2.GetTMax()) info2.joints.stop  = new Joint(on2, on1);
```

The map lookups use `!` and return `undefined` when a key is missing; the
function faults only when it then assigns through such an `undefined`
object.  The model returns `none` on exactly the paths where an assignment
through a missing entry would fault (and, conservatively, when a missing
planar-curve name would be stored inside a joint). -/

/-- The slice of a `c3d.Curve` that `addJoint` consults: its planar-curve
identifier (`Id()`) and its parameter domain (`GetTMin()`, `GetTMax()`). -/
structure PlanarCurve where
  id : Nat
  tmin : ℚ
  tmax : ℚ
  deriving DecidableEq

/-- `c3d.PointOnCurve`: a parameter on a planar curve. -/
structure CurvePoint where
  t : ℚ
  curve : PlanarCurve
  deriving DecidableEq

/-- `c3d.CrossPoint`: an intersection record with a point on each
participant (`on1` on the curve being processed). -/
structure CrossPoint where
  on1 : CurvePoint
  on2 : CurvePoint
  deriving DecidableEq

/-- In-place mutation of one registry entry's `CurveInfo` (JS object
mutation through the reference held by the `Map`): the binding of key `n`
gets `f` applied to its info, every other binding is untouched. -/
def updateEntry : Registry → Nat → (CurveInfo → CurveInfo) → Registry
  | [], _, _ => []
  | (k, v) :: tl, n, f =>
    if k = n then (k, f v) :: updateEntry tl n f
    else (k, v) :: updateEntry tl n f

/-- `info.joints.start = j` on the entry of curve `n`. -/
def setJointStart (reg : Registry) (n : Nat) (j : Joint) : Registry :=
  updateEntry reg n (fun i => { i with joints := { i.joints with start := some j } })

/-- `info.joints.stop = j` on the entry of curve `n`. -/
def setJointStop (reg : Registry) (n : Nat) (j : Joint) : Registry :=
  updateEntry reg n (fun i => { i with joints := { i.joints with stop := some j } })

/-- The joint written onto the first participant:
`new Joint(on1, on2)` with `on1 = new PointOnCurve(view1simpleName, t1, t1min,
t1max)` and `on2 = new PointOnCurve(view2simpleName, t2, t2min, t2max)`. -/
def joint1 (cross : CrossPoint) (n1 n2 : Nat) : Joint :=
  ⟨⟨n1, cross.on1.t, cross.on1.curve.tmin, cross.on1.curve.tmax⟩,
   ⟨n2, cross.on2.t, cross.on2.curve.tmin, cross.on2.curve.tmax⟩⟩

/-- The joint written onto the second participant: `new Joint(on2, on1)`. -/
def joint2 (cross : CrossPoint) (n1 n2 : Nat) : Joint :=
  ⟨⟨n2, cross.on2.t, cross.on2.curve.tmin, cross.on2.curve.tmax⟩,
   ⟨n1, cross.on1.t, cross.on1.curve.tmin, cross.on1.curve.tmax⟩⟩

/-- `PlanarCurveDatabase.addJoint` (see the section comment). -/
def addJoint (reg : Registry) (planar2instance : List (Nat × Nat))
    (cross : CrossPoint) : Option Registry :=
  let c1 := cross.on1.curve
  let c2 := cross.on2.curve
  let t1 := cross.on1.t
  let t2 := cross.on2.t
  if t1 ≠ c1.tmin ∧ t1 ≠ c1.tmax then some reg
  else
    match mapFind planar2instance c1.id, mapFind planar2instance c2.id with
    | some n1, some n2 =>
      match mapFind reg n1 with
      | none => none
      | some _ =>
        let reg1 := if t1 = c1.tmin then setJointStart reg n1 (joint1 cross n1 n2)
                    else setJointStop reg n1 (joint1 cross n1 n2)
        if t2 = c2.tmin then
          match mapFind reg1 n2 with
          | none => none
          | some _ => some (setJointStart reg1 n2 (joint2 cross n1 n2))
        else if t2 = c2.tmax then
          match mapFind reg1 n2 with
          | none => none
          | some _ => some (setJointStop reg1 n2 (joint2 cross n1 n2))
        else some reg1
    | _, _ => none

section JointLemmas

theorem mapFind_updateEntry_self {reg : Registry} {n : Nat} {i : CurveInfo}
    (f : CurveInfo → CurveInfo) (h : mapFind reg n = some i) :
    mapFind (updateEntry reg n f) n = some (f i) := by
  induction reg with
  | nil => simp [mapFind] at h
  | cons hd tl ih =>
    cases hd with
    | mk k v =>
      by_cases hk : k = n
      · subst hk
        simp only [mapFind, if_true, eq_self_iff_true, Option.some.injEq] at h
        subst h
        simp [updateEntry, mapFind]
      · simp only [mapFind, hk, if_false] at h
        simp only [updateEntry, if_neg hk, mapFind, hk, if_false]
        exact ih h

theorem mapFind_updateEntry_other {reg : Registry} {n m : Nat}
    (f : CurveInfo → CurveInfo) (hne : m ≠ n) :
    mapFind (updateEntry reg n f) m = mapFind reg m := by
  induction reg with
  | nil => simp [updateEntry, mapFind]
  | cons hd tl ih =>
    cases hd with
    | mk k v =>
      by_cases hk : k = n
      · subst hk
        have hkm : ¬ (k = m) := fun h => hne h.symm
        simp only [updateEntry, if_pos rfl, mapFind, hkm, if_false]
        exact ih
      · simp only [updateEntry, if_neg hk]
        by_cases hm : k = m
        · simp [mapFind, hm]
        · simp only [mapFind, hm, if_false]
          exact ih

end JointLemmas

/-- **C5 amended** (joint recording): a joint is recorded if and only if
the intersection parameter on the *first* participant (`on1`, the curve
being processed) coincides with that curve's domain boundary; an
intersection whose `t1` is interior records nothing on either curve, even
when `t2` sits at the second curve's boundary.  When it fires, the joint is
written onto curve 1's `joints.start` if `t1 = tMin`, else onto
`joints.stop`, overwriting any prior joint at that end (last-write-wins);
and a mirrored joint is additionally written onto curve 2's matching end
if and only if `t2` coincides with curve 2's `tMin` or `tMax`.  Stated for
an intersection between two distinct registered curves. -/
theorem joint_recording (reg : Registry) (p2i : List (Nat × Nat))
    (cross : CrossPoint) (n1 n2 : Nat) (i1 i2 : CurveInfo)
    (hn1 : mapFind p2i cross.on1.curve.id = some n1)
    (hn2 : mapFind p2i cross.on2.curve.id = some n2)
    (hi1 : mapFind reg n1 = some i1)
    (hi2 : mapFind reg n2 = some i2)
    (hnn : n1 ≠ n2) :
    ((cross.on1.t ≠ cross.on1.curve.tmin ∧ cross.on1.t ≠ cross.on1.curve.tmax) →
      addJoint reg p2i cross = some reg) ∧
    ((cross.on1.t = cross.on1.curve.tmin ∨ cross.on1.t = cross.on1.curve.tmax) →
      ∃ reg', addJoint reg p2i cross = some reg' ∧
        mapFind reg' n1 = some { i1 with joints :=
          if cross.on1.t = cross.on1.curve.tmin
          then { i1.joints with start := some (joint1 cross n1 n2) }
          else { i1.joints with stop := some (joint1 cross n1 n2) } } ∧
        mapFind reg' n2 = some { i2 with joints :=
          if cross.on2.t = cross.on2.curve.tmin
          then { i2.joints with start := some (joint2 cross n1 n2) }
          else if cross.on2.t = cross.on2.curve.tmax
          then { i2.joints with stop := some (joint2 cross n1 n2) }
          else i2.joints } ∧
        (∀ m, m ≠ n1 → m ≠ n2 → mapFind reg' m = mapFind reg m)) := by
  constructor
  · intro h
    simp only [addJoint, if_pos h]
  · intro h
    have hguard : ¬ (cross.on1.t ≠ cross.on1.curve.tmin ∧
        cross.on1.t ≠ cross.on1.curve.tmax) := by tauto
    have hn2n1 : n2 ≠ n1 := fun e => hnn e.symm
    simp only [addJoint, if_neg hguard, hn1, hn2, hi1]
    by_cases ht1 : cross.on1.t = cross.on1.curve.tmin
    · rw [if_pos ht1]
      have hr1n2 : mapFind (setJointStart reg n1 (joint1 cross n1 n2)) n2 =
          some i2 := by
        rw [setJointStart, mapFind_updateEntry_other _ hn2n1]
        exact hi2
      by_cases ht2 : cross.on2.t = cross.on2.curve.tmin
      · rw [if_pos ht2, hr1n2]
        refine ⟨_, rfl, ?_, ?_, ?_⟩
        · rw [setJointStart, mapFind_updateEntry_other _ hnn, setJointStart,
            mapFind_updateEntry_self _ hi1, if_pos ht1]
        · rw [setJointStart, mapFind_updateEntry_self _ hr1n2, if_pos ht2]
        · intro m hm1 hm2
          rw [setJointStart, mapFind_updateEntry_other _ hm2, setJointStart,
            mapFind_updateEntry_other _ hm1]
      · rw [if_neg ht2]
        by_cases ht2b : cross.on2.t = cross.on2.curve.tmax
        · rw [if_pos ht2b, hr1n2]
          refine ⟨_, rfl, ?_, ?_, ?_⟩
          · rw [setJointStop, mapFind_updateEntry_other _ hnn, setJointStart,
              mapFind_updateEntry_self _ hi1, if_pos ht1]
          · rw [setJointStop, mapFind_updateEntry_self _ hr1n2, if_neg ht2,
              if_pos ht2b]
          · intro m hm1 hm2
            rw [setJointStop, mapFind_updateEntry_other _ hm2, setJointStart,
              mapFind_updateEntry_other _ hm1]
        · rw [if_neg ht2b]
          refine ⟨_, rfl, ?_, ?_, ?_⟩
          · rw [setJointStart, mapFind_updateEntry_self _ hi1, if_pos ht1]
          · rw [hr1n2, if_neg ht2, if_neg ht2b]
          · intro m hm1 hm2
            rw [setJointStart, mapFind_updateEntry_other _ hm1]
    · rw [if_neg ht1]
      have hr1n2 : mapFind (setJointStop reg n1 (joint1 cross n1 n2)) n2 =
          some i2 := by
        rw [setJointStop, mapFind_updateEntry_other _ hn2n1]
        exact hi2
      by_cases ht2 : cross.on2.t = cross.on2.curve.tmin
      · rw [if_pos ht2, hr1n2]
        refine ⟨_, rfl, ?_, ?_, ?_⟩
        · rw [setJointStart, mapFind_updateEntry_other _ hnn, setJointStop,
            mapFind_updateEntry_self _ hi1, if_neg ht1]
        · rw [setJointStart, mapFind_updateEntry_self _ hr1n2, if_pos ht2]
        · intro m hm1 hm2
          rw [setJointStart, mapFind_updateEntry_other _ hm2, setJointStop,
            mapFind_updateEntry_other _ hm1]
      · rw [if_neg ht2]
        by_cases ht2b : cross.on2.t = cross.on2.curve.tmax
        · rw [if_pos ht2b, hr1n2]
          refine ⟨_, rfl, ?_, ?_, ?_⟩
          · rw [setJointStop, mapFind_updateEntry_other _ hnn, setJointStop,
              mapFind_updateEntry_self _ hi1, if_neg ht1]
          · rw [setJointStop, mapFind_updateEntry_self _ hr1n2, if_neg ht2,
              if_pos ht2b]
          · intro m hm1 hm2
            rw [setJointStop, mapFind_updateEntry_other _ hm2, setJointStop,
              mapFind_updateEntry_other _ hm1]
        · rw [if_neg ht2b]
          refine ⟨_, rfl, ?_, ?_, ?_⟩
          · rw [setJointStop, mapFind_updateEntry_self _ hi1, if_neg ht1]
          · rw [hr1n2, if_neg ht2, if_neg ht2b]
          · intro m hm1 hm2
            rw [setJointStop, mapFind_updateEntry_other _ hm1]

/-- **C5 counterexample**: an intersection whose parameter is interior on
the first participant (`t1 = 1` on domain `[0, 2]`) but exactly at the
second participant's `tMin` (`t2 = 0`).  The claim says a joint is recorded
when *either* participant is at its boundary; but `addJoint` returns after
the `t1` guard without writing anything — the registry is returned
unchanged, and curve 2's joints stay empty. -/
theorem joint_recording_cex :
    (addJoint [(1, tinfo []), (2, tinfo [])] [(10, 1), (20, 2)]
        ⟨⟨1, ⟨10, 0, 2⟩⟩, ⟨0, ⟨20, 0, 2⟩⟩⟩ =
      some [(1, tinfo []), (2, tinfo [])]) ∧
    ((⟨⟨1, ⟨10, 0, 2⟩⟩, ⟨0, ⟨20, 0, 2⟩⟩⟩ : CrossPoint).on2.t =
      (⟨⟨1, ⟨10, 0, 2⟩⟩, ⟨0, ⟨20, 0, 2⟩⟩⟩ : CrossPoint).on2.curve.tmin) ∧
    (tinfo []).joints = ⟨none, none⟩ := by
  refine ⟨?_, rfl, rfl⟩
  have hg : ((⟨⟨1, ⟨10, 0, 2⟩⟩, ⟨0, ⟨20, 0, 2⟩⟩⟩ : CrossPoint).on1.t ≠
        (⟨⟨1, ⟨10, 0, 2⟩⟩, ⟨0, ⟨20, 0, 2⟩⟩⟩ : CrossPoint).on1.curve.tmin ∧
      (⟨⟨1, ⟨10, 0, 2⟩⟩, ⟨0, ⟨20, 0, 2⟩⟩⟩ : CrossPoint).on1.t ≠
        (⟨⟨1, ⟨10, 0, 2⟩⟩, ⟨0, ⟨20, 0, 2⟩⟩⟩ : CrossPoint).on1.curve.tmax) := by
    constructor <;> norm_num
  simp only [addJoint, if_pos hg]

/-- Concrete intersection for the joint-recording witness: `t1` at
`curve1`'s `tMin`, `t2` at `curve2`'s `tMax`. -/
def jwCross : CrossPoint := ⟨⟨0, ⟨10, 0, 2⟩⟩, ⟨2, ⟨20, 0, 2⟩⟩⟩

/-- Registry for the joint-recording witness. -/
def jwReg : Registry := [(1, tinfo []), (2, tinfo [])]

/-- `planar2instance` map for the joint-recording witness. -/
def jwP2I : List (Nat × Nat) := [(10, 1), (20, 2)]

theorem joint_recording_witness :
    (mapFind jwP2I jwCross.on1.curve.id = some 1 ∧
     mapFind jwP2I jwCross.on2.curve.id = some 2 ∧
     mapFind jwReg 1 = some (tinfo []) ∧
     mapFind jwReg 2 = some (tinfo []) ∧
     (1 : Nat) ≠ 2) ∧
    (((jwCross.on1.t ≠ jwCross.on1.curve.tmin ∧
        jwCross.on1.t ≠ jwCross.on1.curve.tmax) →
      addJoint jwReg jwP2I jwCross = some jwReg) ∧
    ((jwCross.on1.t = jwCross.on1.curve.tmin ∨
        jwCross.on1.t = jwCross.on1.curve.tmax) →
      ∃ reg', addJoint jwReg jwP2I jwCross = some reg' ∧
        mapFind reg' 1 = some { tinfo [] with joints :=
          if jwCross.on1.t = jwCross.on1.curve.tmin
          then { (tinfo []).joints with start := some (joint1 jwCross 1 2) }
          else { (tinfo []).joints with stop := some (joint1 jwCross 1 2) } } ∧
        mapFind reg' 2 = some { tinfo [] with joints :=
          if jwCross.on2.t = jwCross.on2.curve.tmin
          then { (tinfo []).joints with start := some (joint2 jwCross 1 2) }
          else if jwCross.on2.t = jwCross.on2.curve.tmax
          then { (tinfo []).joints with stop := some (joint2 jwCross 1 2) }
          else (tinfo []).joints } ∧
        (∀ m, m ≠ 1 → m ≠ 2 → mapFind reg' m = mapFind jwReg m))) :=
  ⟨⟨rfl, rfl, rfl, rfl, by decide⟩,
    joint_recording jwReg jwP2I jwCross 1 2 (tinfo []) (tinfo [])
      rfl rfl rfl rfl (by decide)⟩

/-! ## Memento / snapshot

```
saveToMemento(): CurveMemento {
    return new CurveMemento(
        new Map(this.curve2info), new Map(this.id2planarCurve), new Set(this.placements));
}
restoreFromMemento(m: CurveMemento) {
    (this.curve2info as ...) = m.curve2info;
    (this.id2planarCurve as ...) = m.id2planarCurve;
    (this.placements as ...) = m.placements;
}
```

`saveToMemento` allocates three fresh collection objects copying the live
contents (copy-on-save).  `restoreFromMemento` is plain field reassignment:
the database's fields afterward reference the memento's *own* collection
objects — no copy is made on restore.  To reason about this object
aliasing, collections live on an explicit heap of reference cells and both
the database and the memento hold references. -/

/-- A reference to a collection object on the heap. -/
abbrev Ref := Nat

/-- `CurveMemento`: the references captured by `saveToMemento`. -/
structure CurveMemento where
  curve2info : Ref
  id2planarCurve : Ref
  placements : Ref
  deriving DecidableEq

/-- The collection-object references held by a `PlanarCurveDatabase`
(its fields `curve2info`, `id2planarCurve`, `placements`). -/
structure PCDFields where
  curve2info : Ref
  id2planarCurve : Ref
  placements : Ref
  deriving DecidableEq

/-- The heap of collection objects: one store per collection type,
plus the next fresh reference. -/
structure Heap where
  infoHeap : List (Ref × Registry)
  curveHeap : List (Ref × List (Nat × Nat))
  placementHeap : List (Ref × List Nat)
  nextRef : Ref
  deriving DecidableEq

/-- Dereference a `curve2info`-typed cell (empty for a dangling ref). -/
def readInfo (h : Heap) (r : Ref) : Registry := (mapFind h.infoHeap r).getD []

/-- Dereference an `id2planarCurve`-typed cell. -/
def readCurves (h : Heap) (r : Ref) : List (Nat × Nat) :=
  (mapFind h.curveHeap r).getD []

/-- Dereference a `placements`-typed cell. -/
def readPlacements (h : Heap) (r : Ref) : List Nat :=
  (mapFind h.placementHeap r).getD []

/-- Write through a reference: update the (unique) cell it names. -/
def writeRef {α : Type} : List (Ref × α) → Ref → (α → α) → List (Ref × α)
  | [], _, _ => []
  | (r, v) :: tl, q, f =>
    if r = q then (r, f v) :: tl else (r, v) :: writeRef tl q f

/-- `PlanarCurveDatabase.saveToMemento`: allocate three fresh collection
objects holding copies of the current live contents (copy-on-save). -/
def saveToMemento (s : PCDFields) (h : Heap) : CurveMemento × Heap :=
  (⟨h.nextRef, h.nextRef + 1, h.nextRef + 2⟩,
   { infoHeap := (h.nextRef, readInfo h s.curve2info) :: h.infoHeap,
     curveHeap := (h.nextRef + 1, readCurves h s.id2planarCurve) :: h.curveHeap,
     placementHeap :=
       (h.nextRef + 2, readPlacements h s.placements) :: h.placementHeap,
     nextRef := h.nextRef + 3 })

/-- `PlanarCurveDatabase.restoreFromMemento`: plain field reassignment — the
database's backing references become the memento's own ones; the previous
fields are discarded and nothing is copied. -/
def restoreFromMemento (_s : PCDFields) (m : CurveMemento) : PCDFields :=
  ⟨m.curve2info, m.id2planarCurve, m.placements⟩

/-- The observable registry state through a field-set: the contents of the
three referenced collections (curve identities with their infos, the planar
curves, the placements). -/
def observe (s : PCDFields) (h : Heap) :
    Registry × List (Nat × Nat) × List Nat :=
  (readInfo h s.curve2info, readCurves h s.id2planarCurve,
    readPlacements h s.placements)

/-- The snapshot's view: the contents of the memento's collections. -/
def observeMemento (m : CurveMemento) (h : Heap) :
    Registry × List (Nat × Nat) × List Nat :=
  (readInfo h m.curve2info, readCurves h m.id2planarCurve,
    readPlacements h m.placements)

/-- A mutation of the live registry through the database's field, as `add`
performs via `curve2info.set(name, info)`: writes through the referenced
object. -/
def setInfoLive (s : PCDFields) (h : Heap) (n : Nat) (i : CurveInfo) : Heap :=
  { h with infoHeap := writeRef h.infoHeap s.curve2info (fun reg => mapSet reg n i) }

section MementoLemmas

theorem readInfo_save_fresh (s : PCDFields) (h : Heap) :
    readInfo (saveToMemento s h).2 h.nextRef = readInfo h s.curve2info := by
  simp [saveToMemento, readInfo, mapFind]

theorem writeRef_other {α : Type} (l : List (Ref × α)) (q r : Ref)
    (f : α → α) (hne : r ≠ q) :
    mapFind (writeRef l q f) r = mapFind l r := by
  induction l with
  | nil => simp [writeRef]
  | cons hd tl ih =>
    cases hd with
    | mk a v =>
      by_cases ha : a = q
      · subst ha
        have : ¬ (a = r) := fun e => hne e.symm
        simp [writeRef, mapFind, this]
      · simp only [writeRef, if_neg ha]
        by_cases har : a = r
        · simp [mapFind, har]
        · simp only [mapFind, har, if_false]
          exact ih

end MementoLemmas

/-- **C2 amended** (memento round-trip and aliasing):
`restoreFromMemento(saveToMemento())` leaves the registry observably
identical; `saveToMemento` copies the live collections, so mutating the
live registry after a save does not alter the snapshot; but
`restoreFromMemento` installs the memento's backing collections themselves
(no copy-on-restore), so after a restore the live registry aliases the
snapshot, and any mutation through the live registry is visible through the
memento — the snapshot is not insulated from post-restore mutation. -/
theorem memento_round_trip :
    (∀ (s : PCDFields) (h : Heap),
      observe (restoreFromMemento s (saveToMemento s h).1) (saveToMemento s h).2 =
        observe s h) ∧
    (∀ (s : PCDFields) (h : Heap) (n : Nat) (i : CurveInfo),
      s.curve2info < h.nextRef →
      observeMemento (saveToMemento s h).1
          (setInfoLive s (saveToMemento s h).2 n i) =
        observeMemento (saveToMemento s h).1 (saveToMemento s h).2) ∧
    (∀ (s : PCDFields) (m : CurveMemento) (h : Heap) (n : Nat) (i : CurveInfo),
      observeMemento m (setInfoLive (restoreFromMemento s m) h n i) =
        observe (restoreFromMemento s m)
          (setInfoLive (restoreFromMemento s m) h n i)) := by
  refine ⟨?_, ?_, ?_⟩
  · intro s h
    show (readInfo _ h.nextRef, readCurves _ (h.nextRef + 1),
      readPlacements _ (h.nextRef + 2)) = _
    simp [saveToMemento, readInfo, readCurves, readPlacements, observe, mapFind]
  · intro s h n i hlt
    have hne : h.nextRef ≠ s.curve2info := fun e => absurd (e ▸ hlt) (lt_irrefl _)
    have key : mapFind (writeRef ((h.nextRef, readInfo h s.curve2info) ::
        h.infoHeap) s.curve2info (fun reg => mapSet reg n i)) h.nextRef =
        mapFind ((h.nextRef, readInfo h s.curve2info) :: h.infoHeap) h.nextRef :=
      writeRef_other _ _ _ _ hne
    simp only [readInfo] at key
    simp only [observeMemento, setInfoLive, saveToMemento, readInfo, readCurves,
      readPlacements]
    rw [key]
  · intro s m h n i
    rfl

/-- **C2 counterexample**: a concrete run violating "mutating the live
registry after a restore does not alter a separately-held snapshot".  Start
from a fresh database, save a memento, restore it, then register one curve
through the live registry: the held memento's view changes from empty to
containing the new curve, because restore aliased the live registry to the
memento's collections. -/
theorem memento_round_trip_cex :
    observeMemento (saveToMemento ⟨0, 1, 2⟩ ⟨[(0, [])], [(1, [])], [(2, [])], 3⟩).1
        (setInfoLive
          (restoreFromMemento ⟨0, 1, 2⟩
            (saveToMemento ⟨0, 1, 2⟩ ⟨[(0, [])], [(1, [])], [(2, [])], 3⟩).1)
          (saveToMemento ⟨0, 1, 2⟩ ⟨[(0, [])], [(1, [])], [(2, [])], 3⟩).2
          7 (tinfo [])) ≠
      observeMemento (saveToMemento ⟨0, 1, 2⟩ ⟨[(0, [])], [(1, [])], [(2, [])], 3⟩).1
        (saveToMemento ⟨0, 1, 2⟩ ⟨[(0, [])], [(1, [])], [(2, [])], 3⟩).2 := by
  decide

/-! ## The add worklist and touched maintenance

The `touched`-relevant slice of `PlanarCurveDatabase.add`:

```
// collect all existing planar curves on the same placement  → cands
curve2info.set(newCurve.simpleName, new CurveInfo(counter, placement));
curvesToProcess.set(newPlanarCurve.Id(), newPlanarCurve);
while (curvesToProcess.size > 0) {
    const [id, current] = curvesToProcess.entries().next().value;  // FIFO
    visited.add(id); curvesToProcess.delete(id);
    const crosses = c3d.CurveEnvelope.IntersectWithAll(current, allPlanarCurves, true);
    if (crosses.length === 0) { ...whole-curve fragment...; continue; }
    if (bounded && !closed) { ...prepend/append boundary crosses whose on2 is current... }
    for (const cross of crosses) {
        info.touched.add(cross.on2 owner);
        if (!visited.has(otherId)) curvesToProcess.set(otherId, other);
    }
}
```

The geometry is abstracted by a crossing relation `cross` on curve
identities (fixed — the planar curves in `allPlanarCurves` are the original
untrimmed ones), a `bopen` predicate (bounded-and-open curves gain a
self-touch through the synthesized boundary cross points, whose `on2` is
the curve itself), and a placement assignment `placeOf`.  The model
traverses each curve's crossing candidates in candidate order rather than
parameter order; the resulting `touched` sets and visited set do not depend
on that order.  The `Map`-backed queue pops its first entry (FIFO) and
`Map.set` of a present key leaves the queue unchanged. -/

/-- `info.touched.add(name)` on the entry of curve `cur`. -/
def addTouched (reg : Registry) (cur x : Nat) : Registry :=
  updateEntry reg cur (fun i => { i with touched := setAdd i.touched x })

/-- Curve `b` is in curve `a`'s registered `touched` set. -/
def Touches (reg : Registry) (a b : Nat) : Prop :=
  ∃ i, mapFind reg a = some i ∧ b ∈ i.touched

/-- One `add` call's worklist (see the section comment); returns the final
registry and visited set.  `none` is a fuel-exhaustion artifact ruled out
by `addWalk_isSome` for the fuel `addCurve` supplies. -/
def addWalk (cross : Nat → Nat → Bool) (bopen : Nat → Bool) (cands : List Nat) :
    Nat → Registry → List Nat → List Nat → Option (Registry × List Nat)
  | _, reg, visited, [] => some (reg, visited)
  | 0, _, _, _ :: _ => none
  | fuel + 1, reg, visited, cur :: rest =>
    let visited' := setAdd visited cur
    let neighbors := cands.filter (fun x => cross cur x)
    if neighbors.isEmpty then
      addWalk cross bopen cands fuel reg visited' rest
    else
      let touchNames := if bopen cur then neighbors ++ [cur] else neighbors
      let reg' := touchNames.foldl (fun r x => addTouched r cur x) reg
      let queue' := neighbors.foldl
        (fun q x => if x ∈ visited' ∨ x ∈ q then q else q ++ [x]) rest
      addWalk cross bopen cands fuel reg' visited' queue'

/-- One `PlanarCurveDatabase.add` call, projected onto registration and
`touched` maintenance: collect the same-placement candidates, register a
fresh `CurveInfo` for the new curve, and drain the worklist seeded with
it. -/
def addCurve (cross : Nat → Nat → Bool) (bopen : Nat → Bool)
    (placeOf : Nat → Nat) (reg : Registry) (newC : Nat) : Option Registry :=
  let cands := (reg.filter (fun p => placeOf p.1 = placeOf newC)).map Prod.fst
      ++ [newC]
  let reg0 := mapSet reg newC (CurveInfo.fresh 0 (placeOf newC))
  (addWalk cross bopen cands (cands.length * (cands.length + 2) + 2)
    reg0 [] [newC]).map Prod.fst

/-- A sequence of `add` calls starting from an empty registry. -/
def addSequence (cross : Nat → Nat → Bool) (bopen : Nat → Bool)
    (placeOf : Nat → Nat) (adds : List Nat) : Option Registry :=
  adds.foldlM (fun reg c => addCurve cross bopen placeOf reg c) []

section AddWalkLemmas

theorem setAdd_mem (l : List Nat) (n x : Nat) :
    x ∈ setAdd l n ↔ x ∈ l ∨ x = n := by
  unfold setAdd
  by_cases h : n ∈ l
  · rw [if_pos h]
    constructor
    · exact Or.inl
    · rintro (hx | rfl)
      · exact hx
      · exact h
  · rw [if_neg h]
    simp [List.mem_append]

theorem setAdd_not_mem {l : List Nat} {n : Nat} (h : n ∉ l) :
    setAdd l n = l ++ [n] := if_neg h

theorem mapSet_find_self {α : Type} (l : List (Nat × α)) (n : Nat) (v : α) :
    mapFind (mapSet l n v) n = some v := by
  induction l with
  | nil => simp [mapSet, mapFind]
  | cons hd tl ih =>
    cases hd with
    | mk k w =>
      by_cases hk : k = n
      · simp [mapSet, hk, mapFind]
      · simp only [mapSet, if_neg hk, mapFind, hk, if_false]
        exact ih

theorem mapSet_find_other {α : Type} (l : List (Nat × α)) (n m : Nat) (v : α)
    (hne : m ≠ n) : mapFind (mapSet l n v) m = mapFind l m := by
  induction l with
  | nil =>
    have : ¬ (n = m) := fun e => hne e.symm
    simp [mapSet, mapFind, this]
  | cons hd tl ih =>
    cases hd with
    | mk k w =>
      by_cases hk : k = n
      · subst hk
        have h1 : ¬ (k = m) := fun e => hne e.symm
        simp [mapSet, mapFind, h1]
      · simp only [mapSet, if_neg hk]
        by_cases hm : k = m
        · simp [mapFind, hm]
        · simp only [mapFind, hm, if_false]
          exact ih

theorem mapSet_keys_fresh {α : Type} (l : List (Nat × α)) (n : Nat) (v : α)
    (h : n ∉ l.map Prod.fst) :
    (mapSet l n v).map Prod.fst = l.map Prod.fst ++ [n] := by
  induction l with
  | nil => simp [mapSet]
  | cons hd tl ih =>
    cases hd with
    | mk k w =>
      simp only [List.map_cons, List.mem_cons] at h
      push_neg at h
      have hk : ¬ (k = n) := fun e => h.1 e.symm
      simp only [mapSet, if_neg hk, List.map_cons, List.cons_append,
        List.cons.injEq, true_and]
      exact ih h.2

theorem updateEntry_keys (reg : Registry) (n : Nat) (f : CurveInfo → CurveInfo) :
    (updateEntry reg n f).map Prod.fst = reg.map Prod.fst := by
  induction reg with
  | nil => rfl
  | cons hd tl ih =>
    cases hd with
    | mk k v =>
      by_cases hk : k = n
      · subst hk
        simp [updateEntry, ih]
      · simp only [updateEntry, if_neg hk, List.map_cons, ih]

theorem addTouched_keys (reg : Registry) (cur x : Nat) :
    (addTouched reg cur x).map Prod.fst = reg.map Prod.fst :=
  updateEntry_keys reg cur _

theorem foldl_addTouched_keys (names : List Nat) :
    ∀ (reg : Registry) (cur : Nat),
    ((names.foldl (fun r x => addTouched r cur x) reg).map Prod.fst) =
      reg.map Prod.fst := by
  induction names with
  | nil => intro reg cur; rfl
  | cons n ns ih =>
    intro reg cur
    show ((ns.foldl _ (addTouched reg cur n)).map Prod.fst) = _
    rw [ih, addTouched_keys]

/-- `Touches` through one `touched.add`. -/
theorem touches_addTouched (reg : Registry) (cur x : Nat) {i : CurveInfo}
    (hi : mapFind reg cur = some i) (a b : Nat) :
    Touches (addTouched reg cur x) a b ↔ Touches reg a b ∨ (a = cur ∧ b = x) := by
  by_cases ha : a = cur
  · subst ha
    unfold Touches
    rw [addTouched, mapFind_updateEntry_self _ hi, hi]
    constructor
    · rintro ⟨j, hj, hb⟩
      cases hj
      rcases (setAdd_mem _ _ _).mp hb with hb | hb
      · exact Or.inl ⟨i, rfl, hb⟩
      · exact Or.inr ⟨rfl, hb⟩
    · rintro (⟨j, hj, hb⟩ | ⟨_, rfl⟩)
      · cases hj
        exact ⟨_, rfl, (setAdd_mem _ _ _).mpr (Or.inl hb)⟩
      · exact ⟨_, rfl, (setAdd_mem _ _ _).mpr (Or.inr rfl)⟩
  · unfold Touches
    rw [addTouched, mapFind_updateEntry_other _ ha]
    constructor
    · exact Or.inl
    · rintro (h | ⟨rfl, _⟩)
      · exact h
      · exact absurd rfl ha

/-- `Touches` through the `touched.add` loop of one processed curve. -/
theorem touches_foldl (cur : Nat) (names : List Nat) :
    ∀ (reg : Registry) (i : CurveInfo), mapFind reg cur = some i →
    ∀ a b, Touches (names.foldl (fun r x => addTouched r cur x) reg) a b ↔
      (Touches reg a b ∨ (a = cur ∧ b ∈ names)) := by
  induction names with
  | nil =>
    intro reg i hi a b
    simp
  | cons n ns ih =>
    intro reg i hi a b
    show Touches (ns.foldl _ (addTouched reg cur n)) a b ↔ _
    have hi' : mapFind (addTouched reg cur n) cur =
        some { i with touched := setAdd i.touched n } := by
      rw [addTouched, mapFind_updateEntry_self _ hi]
    rw [ih _ _ hi', touches_addTouched reg cur n hi]
    constructor
    · rintro ((h | ⟨rfl, rfl⟩) | ⟨rfl, hb⟩)
      · exact Or.inl h
      · exact Or.inr ⟨rfl, List.mem_cons_self _ _⟩
      · exact Or.inr ⟨rfl, List.mem_cons_of_mem _ hb⟩
    · rintro (h | ⟨rfl, hb⟩)
      · exact Or.inl (Or.inl h)
      · rcases List.mem_cons.mp hb with rfl | hb
        · exact Or.inl (Or.inr ⟨rfl, rfl⟩)
        · exact Or.inr ⟨rfl, hb⟩

end AddWalkLemmas

section EnqueueLemmas

/-- Membership in the queue after the enqueue loop of one processed curve:
exactly the old queue plus the unvisited neighbors. -/
theorem enqueue_mem (visited' : List Nat) (neighbors : List Nat) :
    ∀ (q : List Nat) (x : Nat),
    (x ∈ neighbors.foldl
      (fun q y => if y ∈ visited' ∨ y ∈ q then q else q ++ [y]) q) ↔
      x ∈ q ∨ (x ∈ neighbors ∧ x ∉ visited') := by
  induction neighbors with
  | nil => simp
  | cons n ns ih =>
    intro q x
    show x ∈ ns.foldl _ (if n ∈ visited' ∨ n ∈ q then q else q ++ [n]) ↔ _
    by_cases hn : n ∈ visited' ∨ n ∈ q
    · rw [if_pos hn, ih]
      constructor
      · rintro (hx | ⟨hx, hnv⟩)
        · exact Or.inl hx
        · exact Or.inr ⟨List.mem_cons_of_mem _ hx, hnv⟩
      · rintro (hx | ⟨hx, hnv⟩)
        · exact Or.inl hx
        · rcases List.mem_cons.mp hx with rfl | hx
          · rcases hn with hn | hn
            · exact absurd hn hnv
            · exact Or.inl hn
          · exact Or.inr ⟨hx, hnv⟩
    · rw [if_neg hn, ih]
      push_neg at hn
      constructor
      · rintro (hx | ⟨hx, hnv⟩)
        · rcases List.mem_append.mp hx with hx | hx
          · exact Or.inl hx
          · simp only [List.mem_singleton] at hx
            subst hx
            exact Or.inr ⟨List.mem_cons_self _ _, hn.1⟩
        · exact Or.inr ⟨List.mem_cons_of_mem _ hx, hnv⟩
      · rintro (hx | ⟨hx, hnv⟩)
        · exact Or.inl (List.mem_append_left _ hx)
        · rcases List.mem_cons.mp hx with rfl | hx
          · exact Or.inl (List.mem_append_right _ (List.mem_singleton.mpr rfl))
          · exact Or.inr ⟨hx, hnv⟩

/-- The enqueue loop preserves queue distinctness. -/
theorem enqueue_nodup (visited' : List Nat) (neighbors : List Nat) :
    ∀ (q : List Nat), q.Nodup →
    (neighbors.foldl
      (fun q y => if y ∈ visited' ∨ y ∈ q then q else q ++ [y]) q).Nodup := by
  induction neighbors with
  | nil => exact fun q h => h
  | cons n ns ih =>
    intro q hq
    show (ns.foldl _ (if n ∈ visited' ∨ n ∈ q then q else q ++ [n])).Nodup
    by_cases hn : n ∈ visited' ∨ n ∈ q
    · rw [if_pos hn]
      exact ih q hq
    · rw [if_neg hn]
      push_neg at hn
      apply ih
      rw [List.nodup_append]
      exact ⟨hq, List.nodup_singleton _,
        fun a ha hb => (List.mem_singleton.mp hb ▸ hn.2) ha⟩

/-- The enqueue loop grows the queue by at most one entry per crossing. -/
theorem enqueue_len (visited' : List Nat) (neighbors : List Nat) :
    ∀ (q : List Nat),
    (neighbors.foldl
      (fun q y => if y ∈ visited' ∨ y ∈ q then q else q ++ [y]) q).length ≤
      q.length + neighbors.length := by
  induction neighbors with
  | nil => intro q; simp
  | cons n ns ih =>
    intro q
    show (ns.foldl _ (if n ∈ visited' ∨ n ∈ q then q else q ++ [n])).length ≤ _
    by_cases hn : n ∈ visited' ∨ n ∈ q
    · rw [if_pos hn]
      calc (ns.foldl _ q).length ≤ q.length + ns.length := ih q
        _ ≤ q.length + (n :: ns).length := by simp [Nat.le_succ]
    · rw [if_neg hn]
      calc (ns.foldl _ (q ++ [n])).length ≤ (q ++ [n]).length + ns.length := ih _
        _ = q.length + (n :: ns).length := by simp [List.length_append]; omega

/-- Marking a fresh present element visited strictly shrinks the count of
unvisited elements of a list. -/
theorem countP_unvisited_strict {ks visited : List Nat} {x : Nat}
    (hx : x ∈ ks) (hnv : x ∉ visited) :
    ks.countP (fun k => decide (k ∉ visited ++ [x])) <
      ks.countP (fun k => decide (k ∉ visited)) := by
  induction ks with
  | nil => simp at hx
  | cons hd tl ih =>
    have hmono : tl.countP (fun k => decide (k ∉ visited ++ [x])) ≤
        tl.countP (fun k => decide (k ∉ visited)) := by
      apply List.countP_mono_left
      intro a _ ha
      simp only [decide_eq_true_eq] at ha ⊢
      intro hmem
      exact ha (List.mem_append_left _ hmem)
    simp only [List.countP_cons]
    simp only [List.mem_cons] at hx
    rcases hx with hx | hx
    · subst hx
      have e1 : (if (decide (x ∉ visited ++ [x]) = true) then 1 else 0) = 0 :=
        if_neg (by simp)
      have e2 : (if (decide (x ∉ visited) = true) then 1 else 0) = 1 :=
        if_pos (by simpa using hnv)
      rw [e1, e2]
      omega
    · by_cases hh : hd ∈ visited ++ [x]
      · have e1 : (if (decide (hd ∉ visited ++ [x]) = true) then 1 else 0) = 0 := by
          apply if_neg
          simp only [decide_eq_true_eq]
          exact not_not_intro hh
        rw [e1]
        have := ih hx
        omega
      · have e1 : (if (decide (hd ∉ visited ++ [x]) = true) then 1 else 0) = 1 := by
          apply if_pos
          simpa using hh
        have e2 : (if (decide (hd ∉ visited) = true) then 1 else 0) = 1 := by
          apply if_pos
          simp only [decide_eq_true_eq]
          intro hm
          exact hh (List.mem_append_left _ hm)
        rw [e1, e2]
        have := ih hx
        omega

end EnqueueLemmas

/-- Fuel sufficiency for the add worklist: with a distinct queue of
unvisited candidates and the fuel `addCurve` supplies, the walk drains. -/
theorem addWalk_isSome (cross : Nat → Nat → Bool) (bopen : Nat → Bool)
    (cands : List Nat) :
    ∀ fuel (reg : Registry) visited queue,
    queue.Nodup → (∀ x ∈ queue, x ∉ visited) → (∀ x ∈ queue, x ∈ cands) →
    cands.countP (fun k => decide (k ∉ visited)) * (cands.length + 2)
      + queue.length < fuel →
    ∃ out, addWalk cross bopen cands fuel reg visited queue = some out := by
  intro fuel
  induction fuel with
  | zero => intro reg visited queue _ _ _ hbound; omega
  | succ f ih =>
    intro reg visited queue hnd hdisj hsub hbound
    match queue with
    | [] => exact ⟨(reg, visited), rfl⟩
    | cur :: rest =>
      have hcur : cur ∉ visited := hdisj cur (List.mem_cons_self _ _)
      have hcands : cur ∈ cands := hsub cur (List.mem_cons_self _ _)
      have hsetadd : setAdd visited cur = visited ++ [cur] := setAdd_not_mem hcur
      have hcnt : cands.countP (fun k => decide (k ∉ setAdd visited cur)) <
          cands.countP (fun k => decide (k ∉ visited)) := by
        rw [hsetadd]
        exact countP_unvisited_strict hcands hcur
      have hrest_nd : rest.Nodup := (List.nodup_cons.mp hnd).2
      have hrest_disj : ∀ x ∈ rest, x ∉ setAdd visited cur := by
        intro x hx
        rw [hsetadd]
        intro hmem
        rcases List.mem_append.mp hmem with h | h
        · exact hdisj x (List.mem_cons_of_mem _ hx) h
        · exact (List.nodup_cons.mp hnd).1 (List.mem_singleton.mp h ▸ hx)
      have hrest_sub : ∀ x ∈ rest, x ∈ cands :=
        fun x hx => hsub x (List.mem_cons_of_mem _ hx)
      by_cases hne : (cands.filter (fun x => cross cur x)).isEmpty
      · simp only [addWalk, hne, if_true]
        apply ih reg _ rest hrest_nd hrest_disj hrest_sub
        have hmono : cands.countP (fun k => decide (k ∉ setAdd visited cur))
            * (cands.length + 2) ≤
            cands.countP (fun k => decide (k ∉ visited)) * (cands.length + 2) :=
          mul_le_mul_right' (le_of_lt hcnt) _
        simp only [List.length_cons] at hbound
        omega
      · simp only [addWalk, hne, if_false]
        set neighbors := cands.filter (fun x => cross cur x) with hnbrs
        apply ih _ _ _
          (enqueue_nodup _ _ _ hrest_nd)
          (fun x hx => by
            rcases (enqueue_mem _ _ _ _).mp hx with hx | ⟨_, hnv⟩
            · exact hrest_disj x hx
            · exact hnv)
          (fun x hx => by
            rcases (enqueue_mem _ _ _ _).mp hx with hx | ⟨hx, _⟩
            · exact hrest_sub x hx
            · exact List.mem_of_mem_filter hx)
        have hql : (neighbors.foldl
            (fun q x => if x ∈ setAdd visited cur ∨ x ∈ q then q else q ++ [x])
            rest).length ≤ rest.length + neighbors.length :=
          enqueue_len _ _ _
        have hnl : neighbors.length ≤ cands.length :=
          le_trans (List.length_filter_le _ _) (le_refl _)
        have hmul : cands.countP (fun k => decide (k ∉ setAdd visited cur))
            * (cands.length + 2) + (cands.length + 2) ≤
            cands.countP (fun k => decide (k ∉ visited)) * (cands.length + 2) := by
          calc cands.countP (fun k => decide (k ∉ setAdd visited cur))
              * (cands.length + 2) + (cands.length + 2)
              = (cands.countP (fun k => decide (k ∉ setAdd visited cur)) + 1)
                * (cands.length + 2) := by ring
            _ ≤ cands.countP (fun k => decide (k ∉ visited)) * (cands.length + 2) :=
              mul_le_mul_right' (Nat.succ_le_of_lt hcnt) _
        simp only [List.length_cons] at hbound
        omega


/-- Postconditions of a completed add worklist: the queue and the prior
visited set end up visited; everything newly visited is a candidate;
`touched` only grows; every new `touched` link was recorded while its owner
was processed and points to a crossing candidate (or to the owner itself,
via the synthesized boundary cross points); every processed curve ends with
each crossing candidate both in its `touched` set and visited; and the
registry keys are unchanged. -/
theorem addWalk_spec (cross : Nat → Nat → Bool) (bopen : Nat → Bool)
    (cands : List Nat) :
    ∀ fuel (reg : Registry) visited queue reg' V,
    addWalk cross bopen cands fuel reg visited queue = some (reg', V) →
    queue.Nodup → (∀ x ∈ queue, x ∉ visited) → (∀ x ∈ queue, x ∈ cands) →
    (∀ x ∈ cands, x ∈ reg.map Prod.fst) →
    (∀ x ∈ queue, x ∈ V) ∧ (∀ x ∈ visited, x ∈ V) ∧
    (∀ v ∈ V, v ∈ visited ∨ v ∈ cands) ∧
    (∀ a b, Touches reg a b → Touches reg' a b) ∧
    (∀ a b, Touches reg' a b → Touches reg a b ∨
      (a ∈ V ∧ a ∉ visited ∧ ((b ∈ cands ∧ cross a b = true) ∨ b = a))) ∧
    (∀ v ∈ V, v ∉ visited → ∀ x ∈ cands, cross v x = true →
      Touches reg' v x ∧ x ∈ V) ∧
    reg'.map Prod.fst = reg.map Prod.fst := by
  intro fuel
  induction fuel with
  | zero =>
    intro reg visited queue reg' V hV
    match queue with
    | [] =>
      simp only [addWalk, Option.some.injEq, Prod.mk.injEq] at hV
      obtain ⟨rfl, rfl⟩ := hV
      intro _ _ _ _
      exact ⟨fun x hx => (List.not_mem_nil x hx).elim, fun x hx => hx,
        fun v hv => Or.inl hv, fun a b h => h,
        fun a b h => Or.inl h,
        fun v hv hnv => absurd hv hnv, rfl⟩
    | _ :: _ => simp [addWalk] at hV
  | succ f ih =>
    intro reg visited queue reg' V hV
    match queue with
    | [] =>
      simp only [addWalk, Option.some.injEq, Prod.mk.injEq] at hV
      obtain ⟨rfl, rfl⟩ := hV
      intro _ _ _ _
      exact ⟨fun x hx => (List.not_mem_nil x hx).elim, fun x hx => hx,
        fun v hv => Or.inl hv, fun a b h => h,
        fun a b h => Or.inl h,
        fun v hv hnv => absurd hv hnv, rfl⟩
    | cur :: rest =>
      intro hnd hdisj hsub hkeys
      have hcur : cur ∉ visited := hdisj cur (List.mem_cons_self _ _)
      have hcands : cur ∈ cands := hsub cur (List.mem_cons_self _ _)
      have hsetadd : setAdd visited cur = visited ++ [cur] := setAdd_not_mem hcur
      have hrest_nd : rest.Nodup := (List.nodup_cons.mp hnd).2
      have hrest_disj : ∀ x ∈ rest, x ∉ setAdd visited cur := by
        intro x hx
        rw [hsetadd]
        intro hmem
        rcases List.mem_append.mp hmem with h | h
        · exact hdisj x (List.mem_cons_of_mem _ hx) h
        · exact (List.nodup_cons.mp hnd).1 (List.mem_singleton.mp h ▸ hx)
      have hrest_sub : ∀ x ∈ rest, x ∈ cands :=
        fun x hx => hsub x (List.mem_cons_of_mem _ hx)
      have hnotvis' : ∀ a, a ∉ setAdd visited cur → a ∉ visited := by
        intro a ha hmem
        rw [hsetadd] at ha
        exact ha (List.mem_append_left _ hmem)
      have hcurvis' : cur ∈ setAdd visited cur := by
        rw [hsetadd]
        exact List.mem_append_right _ (List.mem_singleton.mpr rfl)
      have hvis'cases : ∀ v, v ∈ setAdd visited cur → v ∈ visited ∨ v = cur := by
        intro v hv
        rw [hsetadd] at hv
        rcases List.mem_append.mp hv with h | h
        · exact Or.inl h
        · exact Or.inr (List.mem_singleton.mp h)
      have hsplitvis' : ∀ a, a ∉ visited → a ≠ cur → a ∉ setAdd visited cur := by
        intro a ha hac
        rw [hsetadd]
        intro hmem
        rcases List.mem_append.mp hmem with h | h
        · exact ha h
        · exact hac (List.mem_singleton.mp h)
      by_cases hne : (cands.filter (fun x => cross cur x)).isEmpty
      · simp only [addWalk, hne, if_true] at hV
        obtain ⟨h1, h2, h3, h4, h5, h6, h7⟩ :=
          ih reg _ rest reg' V hV hrest_nd hrest_disj hrest_sub hkeys
        have hnocross : ∀ x ∈ cands, ¬ (cross cur x = true) := by
          intro x hx hc
          have hmem : x ∈ cands.filter (fun y => cross cur y) :=
            List.mem_filter.mpr ⟨hx, hc⟩
          rw [List.isEmpty_iff] at hne
          rw [hne] at hmem
          exact List.not_mem_nil x hmem
        refine ⟨?_, ?_, ?_, h4, ?_, ?_, h7⟩
        · intro x hx
          rcases List.mem_cons.mp hx with rfl | hx
          · exact h2 _ hcurvis'
          · exact h1 _ hx
        · intro x hx
          exact h2 _ (by rw [hsetadd]; exact List.mem_append_left _ hx)
        · intro v hv
          rcases h3 v hv with h | h
          · rcases hvis'cases v h with h | rfl
            · exact Or.inl h
            · exact Or.inr hcands
          · exact Or.inr h
        · intro a b hab
          rcases h5 a b hab with h | ⟨haV, hanv, hx⟩
          · exact Or.inl h
          · exact Or.inr ⟨haV, hnotvis' a hanv, hx⟩
        · intro v hv hnv x hx hc
          by_cases hvc : v = cur
          · subst hvc
            exact absurd hc (hnocross x hx)
          · exact h6 v hv (hsplitvis' v hnv hvc) x hx hc
      · simp only [addWalk, hne, if_false] at hV
        obtain ⟨i0, hi0⟩ := mapFind_isSome_of_mem (hkeys cur hcands)
        have hfold := touches_foldl cur
          (if bopen cur = true then cands.filter (fun x => cross cur x) ++ [cur]
            else cands.filter (fun x => cross cur x)) reg i0 hi0
        have hfoldkeys := foldl_addTouched_keys
          (if bopen cur = true then cands.filter (fun x => cross cur x) ++ [cur]
            else cands.filter (fun x => cross cur x)) reg cur
        have hq'disj : ∀ x ∈ (cands.filter (fun y => cross cur y)).foldl
            (fun q x => if x ∈ setAdd visited cur ∨ x ∈ q then q else q ++ [x])
            rest, x ∉ setAdd visited cur := by
          intro x hx
          rcases (enqueue_mem _ _ _ _).mp hx with hx | ⟨_, hnv⟩
          · exact hrest_disj x hx
          · exact hnv
        have hq'sub : ∀ x ∈ (cands.filter (fun y => cross cur y)).foldl
            (fun q x => if x ∈ setAdd visited cur ∨ x ∈ q then q else q ++ [x])
            rest, x ∈ cands := by
          intro x hx
          rcases (enqueue_mem _ _ _ _).mp hx with hx | ⟨hx, _⟩
          · exact hrest_sub x hx
          · exact List.mem_of_mem_filter hx
        have hkeys' : ∀ x ∈ cands, x ∈
            ((if bopen cur = true then cands.filter (fun y => cross cur y) ++ [cur]
              else cands.filter (fun y => cross cur y)).foldl
              (fun r x => addTouched r cur x) reg).map Prod.fst := by
          intro x hx
          rw [hfoldkeys]
          exact hkeys x hx
        obtain ⟨h1, h2, h3, h4, h5, h6, h7⟩ :=
          ih _ _ _ reg' V hV (enqueue_nodup _ _ _ hrest_nd) hq'disj hq'sub hkeys'
        have hTNmem : ∀ b, b ∈
            (if bopen cur = true then cands.filter (fun y => cross cur y) ++ [cur]
              else cands.filter (fun y => cross cur y)) ↔
            ((b ∈ cands ∧ cross cur b = true) ∨ (bopen cur = true ∧ b = cur)) := by
          intro b
          by_cases hb : bopen cur = true
          · rw [if_pos hb]
            constructor
            · intro hm
              rcases List.mem_append.mp hm with hm | hm
              · exact Or.inl (List.mem_filter.mp hm)
              · exact Or.inr ⟨hb, List.mem_singleton.mp hm⟩
            · rintro (⟨hc, hcr⟩ | ⟨_, rfl⟩)
              · exact List.mem_append_left _ (List.mem_filter.mpr ⟨hc, hcr⟩)
              · exact List.mem_append_right _ (List.mem_singleton.mpr rfl)
          · rw [if_neg hb]
            constructor
            · intro hm
              exact Or.inl (List.mem_filter.mp hm)
            · rintro (⟨hc, hcr⟩ | ⟨hbo, rfl⟩)
              · exact List.mem_filter.mpr ⟨hc, hcr⟩
              · exact absurd hbo hb
        have hnbrTN : ∀ x, x ∈ cands.filter (fun y => cross cur y) → x ∈
            (if bopen cur = true then cands.filter (fun y => cross cur y) ++ [cur]
              else cands.filter (fun y => cross cur y)) := by
          intro x hx
          by_cases hb : bopen cur = true
          · rw [if_pos hb]
            exact List.mem_append_left _ hx
          · rw [if_neg hb]
            exact hx
        refine ⟨?_, ?_, ?_, ?_, ?_, ?_, ?_⟩
        · intro x hx
          rcases List.mem_cons.mp hx with rfl | hx
          · exact h2 _ hcurvis'
          · exact h1 _ ((enqueue_mem _ _ _ _).mpr (Or.inl hx))
        · intro x hx
          exact h2 _ (by rw [hsetadd]; exact List.mem_append_left _ hx)
        · intro v hv
          rcases h3 v hv with h | h
          · rcases hvis'cases v h with h | rfl
            · exact Or.inl h
            · exact Or.inr hcands
          · exact Or.inr h
        · intro a b hab
          exact h4 a b ((hfold a b).mpr (Or.inl hab))
        · intro a b hab
          rcases h5 a b hab with h | ⟨haV, hanv, hx⟩
          · rcases (hfold a b).mp h with h | ⟨rfl, hbTN⟩
            · exact Or.inl h
            · refine Or.inr ⟨h2 _ hcurvis', hcur, ?_⟩
              rcases (hTNmem b).mp hbTN with h | ⟨_, rfl⟩
              · exact Or.inl h
              · exact Or.inr rfl
          · exact Or.inr ⟨haV, hnotvis' a hanv, hx⟩
        · intro v hv hnv x hx hc
          by_cases hvc : v = cur
          · subst hvc
            have hxnbr : x ∈ cands.filter (fun y => cross v y) :=
              List.mem_filter.mpr ⟨hx, hc⟩
            refine ⟨?_, ?_⟩
            · exact h4 v x ((hfold v x).mpr
                (Or.inr ⟨rfl, hnbrTN x hxnbr⟩))
            · by_cases hxv : x ∈ setAdd visited v
              · exact h2 _ hxv
              · exact h1 _ ((enqueue_mem _ _ _ _).mpr (Or.inr ⟨hxnbr, hxv⟩))
          · obtain ⟨ht, hxV⟩ := h6 v hv (hsplitvis' v hnv hvc) x hx hc
            exact ⟨ht, hxV⟩
        · rw [h7, hfoldkeys]

/-- One `add` call completes, preserves `touched` symmetry (for a symmetric
crossing relation), and appends the new curve's registry key. -/
theorem addCurve_symm (cross : Nat → Nat → Bool) (bopen : Nat → Bool)
    (placeOf : Nat → Nat) (hsym : ∀ a b, cross a b = cross b a)
    (reg : Registry) (newC : Nat)
    (hreg_sym : ∀ a b, Touches reg a b → Touches reg b a)
    (hnew : newC ∉ reg.map Prod.fst) :
    ∃ reg', addCurve cross bopen placeOf reg newC = some reg' ∧
      (∀ a b, Touches reg' a b → Touches reg' b a) ∧
      reg'.map Prod.fst = reg.map Prod.fst ++ [newC] := by
  set cands := (reg.filter (fun p => placeOf p.1 = placeOf newC)).map Prod.fst
      ++ [newC] with hcandsdef
  set reg0 := mapSet reg newC (CurveInfo.fresh 0 (placeOf newC)) with hreg0def
  have hkeys0 : reg0.map Prod.fst = reg.map Prod.fst ++ [newC] :=
    mapSet_keys_fresh reg newC _ hnew
  have hcands_keys : ∀ x ∈ cands, x ∈ reg0.map Prod.fst := by
    intro x hx
    rw [hkeys0]
    rcases List.mem_append.mp hx with hx | hx
    · obtain ⟨p, hp, rfl⟩ := List.mem_map.mp hx
      exact List.mem_append_left _
        (List.mem_map.mpr ⟨p, List.mem_of_mem_filter hp, rfl⟩)
    · exact List.mem_append_right _ hx
  have hseed_sub : ∀ x ∈ [newC], x ∈ cands := by
    intro x hx
    rw [List.mem_singleton.mp hx]
    exact List.mem_append_right _ (List.mem_singleton.mpr rfl)
  have hbound : cands.countP (fun k => decide (k ∉ ([] : List Nat)))
      * (cands.length + 2) + ([newC] : List Nat).length <
      cands.length * (cands.length + 2) + 2 := by
    have hle : cands.countP (fun k => decide (k ∉ ([] : List Nat))) ≤
        cands.length := List.countP_le_length _
    have := mul_le_mul_right' hle (cands.length + 2)
    simp only [List.length_singleton]
    omega
  obtain ⟨⟨regW, V⟩, hwalk⟩ := addWalk_isSome cross bopen cands
    (cands.length * (cands.length + 2) + 2) reg0 [] [newC]
    (List.nodup_singleton _) (fun x _ => List.not_mem_nil x) hseed_sub hbound
  have hrun : addCurve cross bopen placeOf reg newC = some regW := by
    show (addWalk cross bopen cands (cands.length * (cands.length + 2) + 2)
      reg0 [] [newC]).map Prod.fst = some regW
    rw [hwalk]
    rfl
  obtain ⟨h1, h2, h3, h4, h5, h6, h7⟩ := addWalk_spec cross bopen cands
    (cands.length * (cands.length + 2) + 2) reg0 [] [newC] regW V hwalk
    (List.nodup_singleton _) (fun x _ => List.not_mem_nil x) hseed_sub hcands_keys
  have hmono0 : ∀ a b, Touches reg a b → Touches reg0 a b := by
    rintro a b ⟨i, hi, hb⟩
    have hane : a ≠ newC := by
      rintro rfl
      exact hnew (List.mem_map.mpr ⟨(a, i), mapFind_mem hi, rfl⟩)
    exact ⟨i, by rw [hreg0def, mapSet_find_other _ _ _ _ hane]; exact hi, hb⟩
  have hback0 : ∀ a b, Touches reg0 a b → Touches reg a b := by
    rintro a b ⟨i, hi, hb⟩
    by_cases hane : a = newC
    · subst hane
      rw [hreg0def, mapSet_find_self] at hi
      cases hi
      exact absurd hb (List.not_mem_nil b)
    · rw [hreg0def, mapSet_find_other _ _ _ _ hane] at hi
      exact ⟨i, hi, hb⟩
  refine ⟨regW, hrun, ?_, by rw [h7, hkeys0]⟩
  intro a b hab
  rcases h5 a b hab with h | ⟨haV, _, hbc⟩
  · exact h4 b a (hmono0 b a (hreg_sym a b (hback0 a b h)))
  · rcases hbc with ⟨hbcand, hc⟩ | rfl
    · have hacand : a ∈ cands := by
        rcases h3 a haV with h | h
        · exact absurd h (List.not_mem_nil a)
        · exact h
      obtain ⟨_, hbV⟩ := h6 a haV (List.not_mem_nil a) b hbcand hc
      have hcba : cross b a = true := by rw [hsym b a]; exact hc
      exact (h6 b hbV (List.not_mem_nil b) a hacand hcba).1
    · exact hab

/-- **C7** (touch symmetry at quiescence): for a symmetric geometric
crossing relation, after any sequence of `add` calls of distinct new curves
settles (each worklist fully drained), the `touched` relation is symmetric:
A's touched set contains B iff B's touched set contains A.  (Curves on
different placements never become candidates of one another, so the claim's
same-placement restriction is subsumed: `cross` is only consulted on
coplanar candidate pairs, and symmetry holds for all pairs.) -/
theorem touch_symmetry (cross : Nat → Nat → Bool) (bopen : Nat → Bool)
    (placeOf : Nat → Nat) (hsym : ∀ a b, cross a b = cross b a)
    (adds : List Nat) (hnodup : adds.Nodup) :
    ∃ reg, addSequence cross bopen placeOf adds = some reg ∧
      ∀ A B, Touches reg A B ↔ Touches reg B A := by
  suffices haux : ∀ (l : List Nat) (reg : Registry),
      (∀ a b, Touches reg a b → Touches reg b a) →
      (∀ c ∈ l, c ∉ reg.map Prod.fst) → l.Nodup →
      ∃ reg', l.foldlM (fun r c => addCurve cross bopen placeOf r c) reg =
          some reg' ∧
        (∀ a b, Touches reg' a b → Touches reg' b a) by
    obtain ⟨reg, hrun, hsymm⟩ := haux adds []
      (by rintro a b ⟨i, hi, _⟩; simp [mapFind] at hi)
      (by intro c _ h; simp at h) hnodup
    exact ⟨reg, hrun, fun A B => ⟨hsymm A B, hsymm B A⟩⟩
  intro l
  induction l with
  | nil =>
    intro reg hs _ _
    exact ⟨reg, rfl, hs⟩
  | cons c cs ih =>
    intro reg hs hfresh hnd
    obtain ⟨reg1, hrun1, hs1, hkeys1⟩ := addCurve_symm cross bopen placeOf hsym
      reg c hs (hfresh c (List.mem_cons_self _ _))
    have hfresh1 : ∀ c' ∈ cs, c' ∉ reg1.map Prod.fst := by
      intro c' hc' hmem
      rw [hkeys1] at hmem
      rcases List.mem_append.mp hmem with h | h
      · exact hfresh c' (List.mem_cons_of_mem _ hc') h
      · exact (List.nodup_cons.mp hnd).1 (List.mem_singleton.mp h ▸ hc')
    obtain ⟨reg', hrun', hs'⟩ := ih reg1 hs1 hfresh1 (List.nodup_cons.mp hnd).2
    refine ⟨reg', ?_, hs'⟩
    show (addCurve cross bopen placeOf reg c) >>=
      (fun r => cs.foldlM (fun r c => addCurve cross bopen placeOf r c) r) = _
    rw [hrun1]
    exact hrun'

/-- A symmetric concrete crossing relation for the witness: curves 1 and 2
cross each other; nothing else crosses. -/
def wCross (a b : Nat) : Bool := decide ((min a b, max a b) = (1, 2))

theorem touch_symmetry_witness :
    (∀ a b, wCross a b = wCross b a) ∧ ([1, 2] : List Nat).Nodup ∧
    (∃ reg, addSequence wCross (fun _ => true) (fun _ => 0) [1, 2] = some reg ∧
      ∀ A B, Touches reg A B ↔ Touches reg B A) :=
  ⟨fun a b => by simp [wCross, Nat.min_comm, Nat.max_comm],
    by decide,
    touch_symmetry wCross (fun _ => true) (fun _ => 0)
      (fun a b => by simp [wCross, Nat.min_comm, Nat.max_comm])
      [1, 2] (by decide)⟩

theorem memento_round_trip_witness :
    ((⟨0, 1, 2⟩ : PCDFields).curve2info <
      (⟨[(0, [])], [(1, [])], [(2, [])], 3⟩ : Heap).nextRef) ∧
    observeMemento
        (saveToMemento ⟨0, 1, 2⟩ ⟨[(0, [])], [(1, [])], [(2, [])], 3⟩).1
        (setInfoLive ⟨0, 1, 2⟩
          (saveToMemento ⟨0, 1, 2⟩ ⟨[(0, [])], [(1, [])], [(2, [])], 3⟩).2
          7 (tinfo [])) =
      observeMemento
        (saveToMemento ⟨0, 1, 2⟩ ⟨[(0, [])], [(1, [])], [(2, [])], 3⟩).1
        (saveToMemento ⟨0, 1, 2⟩ ⟨[(0, [])], [(1, [])], [(2, [])], 3⟩).2 :=
  ⟨by decide,
    memento_round_trip.2.1 ⟨0, 1, 2⟩ ⟨[(0, [])], [(1, [])], [(2, [])], 3⟩
      7 (tinfo []) (by decide)⟩
